import Mathlib

/-!
Verification of the parallel fan-out retrieval, deduplication and rank-fusion
engine together with its token streaming relay.

The Lean definitions below are a shallow embedding of the Python sources:

* `src/agent/chatbot_agent_claw7.py` — `SSECallbackHandler.on_llm_new_token`,
  `execute_dual_track_search`, and `parallel_comprehensive_search`;
* `src/Backend/server.py` — the `/ask_stream` endpoint (its `worker` thread and
  its `stream` generator loop).

Python strings are modeled as `List Char` where string-content reasoning is
needed (the marker gating of the streaming callback) and as `String` elsewhere.
External network services (embedding, the two retrieval RPCs, the reranker,
`json.loads`) are modeled as oracle parameters returning `Except`-values: an
`Except.error` value plays the role of the exception the Python client call
would raise.  Scores are modeled as rationals.
-/

namespace Ojas

/-! ### Streaming callback (`SSECallbackHandler`, lines 35-63)

Python strings are lists of characters here so that substring reasoning is
possible. -/

/-- Python characters. -/
abbrev PyStr := List Char

/-- Model of the Python substring test `marker in buf`. -/
def hasSubstr (marker : PyStr) : PyStr → Bool
  | [] => marker.isEmpty
  | c :: cs => marker.isPrefixOf (c :: cs) || hasSubstr marker cs

/-- Model of `buf.split(marker, 1)[1]`: everything strictly after the first
occurrence of `marker` in `buf` (`[]` when there is no occurrence). -/
def splitOnceAfter (marker : PyStr) : PyStr → PyStr
  | [] => []
  | c :: cs =>
    if marker.isPrefixOf (c :: cs) then (c :: cs).drop marker.length
    else splitOnceAfter marker cs

/-- State of `SSECallbackHandler`: the accumulation buffer, the `started`
flag, and the contents of the token queue `q` (in FIFO order). -/
structure SSEState where
  buffer : PyStr := []
  started : Bool := false
  q : List PyStr := []
deriving DecidableEq

/-- One call of `SSECallbackHandler.on_llm_new_token` (lines 48-63). -/
def on_llm_new_token (marker : PyStr) (st : SSEState) (token : PyStr) : SSEState :=
  if st.started then
    { st with q := st.q ++ [token] }
  else
    let buffer := st.buffer ++ token
    if hasSubstr marker buffer then
      let after_marker := splitOnceAfter marker buffer
      { buffer := buffer, started := true,
        q := st.q ++ if after_marker.isEmpty then [] else [after_marker] }
    else
      { st with buffer := buffer }

/-- The callback applied to a whole generated token stream, starting from the
freshly-constructed handler state. -/
def runTokens (marker : PyStr) (tokens : List PyStr) : SSEState :=
  tokens.foldl (on_llm_new_token marker) {}

/-- The configured marker (`start_marker` default of `SSECallbackHandler`). -/
def finalAnswerMarker : PyStr := "Final Answer:".toList

section PrefixFacts

variable {α : Type} [BEq α]

theorem isPrefixOf_append_extend {m a b : List α} (h : m.isPrefixOf a = true) :
    m.isPrefixOf (a ++ b) = true := by
  induction m generalizing a with
  | nil => simp [List.isPrefixOf]
  | cons x xs ih =>
    cases a with
    | nil => simp [List.isPrefixOf] at h
    | cons y ys =>
      simp only [List.isPrefixOf, Bool.and_eq_true] at h
      simp only [List.cons_append, List.isPrefixOf, Bool.and_eq_true]
      exact ⟨h.1, ih h.2⟩

theorem length_le_of_isPrefixOf {m a : List α} (h : m.isPrefixOf a = true) :
    m.length ≤ a.length := by
  induction m generalizing a with
  | nil => simp
  | cons x xs ih =>
    cases a with
    | nil => simp [List.isPrefixOf] at h
    | cons y ys =>
      simp only [List.isPrefixOf, Bool.and_eq_true] at h
      simpa using ih h.2

theorem isPrefixOf_of_append_of_le {m a b : List α}
    (h : m.isPrefixOf (a ++ b) = true) (hle : m.length ≤ a.length) :
    m.isPrefixOf a = true := by
  induction m generalizing a with
  | nil => simp [List.isPrefixOf]
  | cons x xs ih =>
    cases a with
    | nil => simp at hle
    | cons y ys =>
      simp only [List.cons_append, List.isPrefixOf, Bool.and_eq_true] at h
      simp only [List.isPrefixOf, Bool.and_eq_true]
      exact ⟨h.1, ih h.2 (by simpa using hle)⟩

theorem drop_append_of_isPrefixOf {m a : List α} (b : List α)
    (h : m.isPrefixOf a = true) :
    (a ++ b).drop m.length = a.drop m.length ++ b :=
  List.drop_append_of_le_length (length_le_of_isPrefixOf h)

end PrefixFacts

theorem hasSubstr_cons (m : PyStr) (c : Char) (cs : PyStr) :
    hasSubstr m (c :: cs) = (m.isPrefixOf (c :: cs) || hasSubstr m cs) := rfl

theorem splitOnceAfter_cons (m : PyStr) (c : Char) (cs : PyStr) :
    splitOnceAfter m (c :: cs) =
      if m.isPrefixOf (c :: cs) = true then (c :: cs).drop m.length
      else splitOnceAfter m cs := rfl

theorem hasSubstr_nil_marker (a : PyStr) : hasSubstr [] a = true := by
  induction a with
  | nil => rfl
  | cons c cs ih => simp [hasSubstr, List.isPrefixOf]

theorem length_le_of_hasSubstr {m a : PyStr} (h : hasSubstr m a = true) :
    m.length ≤ a.length := by
  induction a with
  | nil =>
    simp only [hasSubstr, List.isEmpty_eq_true] at h
    simp [h]
  | cons c cs ih =>
    simp only [hasSubstr, Bool.or_eq_true] at h
    rcases h with h | h
    · exact length_le_of_isPrefixOf h
    · exact Nat.le_trans (ih h) (by simp)

theorem hasSubstr_append_extend {m a : PyStr} (b : PyStr)
    (h : hasSubstr m a = true) : hasSubstr m (a ++ b) = true := by
  induction a with
  | nil =>
    simp only [hasSubstr, List.isEmpty_eq_true] at h
    subst h
    exact hasSubstr_nil_marker b
  | cons c cs ih =>
    simp only [hasSubstr, Bool.or_eq_true] at h
    simp only [List.cons_append, hasSubstr, Bool.or_eq_true]
    rcases h with h | h
    · exact Or.inl (isPrefixOf_append_extend h)
    · exact Or.inr (ih h)

theorem splitOnceAfter_append {m a : PyStr} (b : PyStr)
    (h : hasSubstr m a = true) :
    splitOnceAfter m (a ++ b) = splitOnceAfter m a ++ b := by
  induction a with
  | nil =>
    simp only [hasSubstr, List.isEmpty_eq_true] at h
    subst h
    cases b with
    | nil => rfl
    | cons c cs =>
      rw [List.nil_append, splitOnceAfter_cons]
      rw [if_pos (by simp [List.isPrefixOf])]
      rfl
  | cons c cs ih =>
    rw [hasSubstr_cons, Bool.or_eq_true] at h
    rw [List.cons_append]
    cases hp : m.isPrefixOf (c :: cs) with
    | true =>
      have hp' : m.isPrefixOf (c :: (cs ++ b)) = true := by
        have := isPrefixOf_append_extend (b := b) hp
        rw [List.cons_append] at this
        exact this
      rw [splitOnceAfter_cons m c (cs ++ b), hp', if_pos rfl]
      rw [splitOnceAfter_cons m c cs, hp, if_pos rfl]
      have := drop_append_of_isPrefixOf (a := c :: cs) b hp
      rw [List.cons_append] at this
      exact this
    | false =>
      have hsub : hasSubstr m cs = true := by
        rcases h with h | h
        · rw [hp] at h; exact absurd h (by simp)
        · exact h
      have hlen : m.length ≤ cs.length := length_le_of_hasSubstr hsub
      have hp' : m.isPrefixOf (c :: (cs ++ b)) = false := by
        cases hcase : m.isPrefixOf (c :: (cs ++ b)) with
        | false => rfl
        | true =>
          have h2 : m.isPrefixOf (c :: cs) = true :=
            isPrefixOf_of_append_of_le (a := c :: cs) (b := b)
              (by rw [List.cons_append]; exact hcase)
              (by simpa using Nat.le_succ_of_le hlen)
          rw [hp] at h2
          exact absurd h2 (by simp)
      rw [splitOnceAfter_cons m c (cs ++ b), hp', if_neg (by simp)]
      rw [splitOnceAfter_cons m c cs, hp, if_neg (by simp)]
      exact ih hsub

/-- Invariant of the callback loop: before the marker has been observed the
queue is empty, the buffer is the whole stream so far and the marker does not
occur in it; afterwards the queue contents concatenate to exactly the part of
the stream strictly after the first marker occurrence. -/
def SSEInv (marker stream : PyStr) (st : SSEState) : Prop :=
  (st.started = false ∧ st.q = [] ∧ st.buffer = stream ∧
      hasSubstr marker stream = false) ∨
  (st.started = true ∧ st.q.flatten = splitOnceAfter marker stream ∧
      hasSubstr marker stream = true)

theorem on_llm_new_token_of_started (marker : PyStr) (st : SSEState) (t : PyStr)
    (hst : st.started = true) :
    on_llm_new_token marker st t = { st with q := st.q ++ [t] } := by
  unfold on_llm_new_token
  rw [hst, if_pos rfl]

theorem on_llm_new_token_of_waiting (marker : PyStr) (st : SSEState) (t : PyStr)
    (hst : st.started = false) :
    on_llm_new_token marker st t =
      if hasSubstr marker (st.buffer ++ t) = true then
        { buffer := st.buffer ++ t, started := true,
          q := st.q ++
            if (splitOnceAfter marker (st.buffer ++ t)).isEmpty then []
            else [splitOnceAfter marker (st.buffer ++ t)] }
      else { st with buffer := st.buffer ++ t } := by
  unfold on_llm_new_token
  rw [hst, if_neg (by simp)]

theorem SSEInv_step (marker stream : PyStr) (st : SSEState) (t : PyStr)
    (h : SSEInv marker stream st) :
    SSEInv marker (stream ++ t) (on_llm_new_token marker st t) := by
  rcases h with ⟨hst, hq, hbuf, hocc⟩ | ⟨hst, hq, hocc⟩
  · rw [on_llm_new_token_of_waiting marker st t hst, hbuf]
    cases hocc' : hasSubstr marker (stream ++ t) with
    | true =>
      rw [if_pos rfl]
      refine Or.inr ⟨rfl, ?_, hocc'⟩
      cases he : (splitOnceAfter marker (stream ++ t)).isEmpty with
      | true =>
        rw [List.isEmpty_eq_true] at he
        simp [hq, he]
      | false => simp [hq, he]
    | false =>
      rw [if_neg (by simp)]
      exact Or.inl ⟨hst, hq, rfl, hocc'⟩
  · rw [on_llm_new_token_of_started marker st t hst]
    refine Or.inr ⟨hst, ?_, hasSubstr_append_extend t hocc⟩
    rw [splitOnceAfter_append t hocc]
    simp [hq]

theorem SSEInv_run (marker : PyStr) (tokens : List PyStr) :
    ∀ (stream : PyStr) (st : SSEState), SSEInv marker stream st →
      SSEInv marker (stream ++ tokens.flatten)
        (tokens.foldl (on_llm_new_token marker) st) := by
  induction tokens with
  | nil => intro stream st h; simpa using h
  | cons t ts ih =>
    intro stream st h
    have h1 := SSEInv_step marker stream st t h
    have h2 := ih (stream ++ t) (on_llm_new_token marker st t) h1
    simpa [List.append_assoc] using h2

/-- Claim C3: the token relay forwards no text at or before the configured
marker `"Final Answer:"`; the concatenation of the forwarded tokens is exactly
the part of the concatenated generated stream strictly after the first
occurrence of the marker (and nothing at all when the marker never occurs).
In particular, for the stream `["Thought: x", "Final Answer:", " Hello",
" world"]` the forwarded tokens are exactly `[" Hello", " world"]`. -/
theorem C3_marker_gating :
    (∀ tokens : List PyStr,
      (runTokens finalAnswerMarker tokens).q.flatten =
        (if hasSubstr finalAnswerMarker tokens.flatten = true
         then splitOnceAfter finalAnswerMarker tokens.flatten else [])) ∧
    (runTokens finalAnswerMarker
        (["Thought: x", "Final Answer:", " Hello", " world"].map String.toList)).q =
      [" Hello".toList, " world".toList] := by
  constructor
  · intro tokens
    have hinit : SSEInv finalAnswerMarker [] {} := by
      refine Or.inl ⟨rfl, rfl, rfl, ?_⟩
      decide
    have h := SSEInv_run finalAnswerMarker tokens [] {} hinit
    rcases h with ⟨_, hq, _, hocc⟩ | ⟨_, hq, hocc⟩
    · simp only [List.nil_append] at hq hocc
      simp [runTokens, hq, hocc]
    · simp only [List.nil_append] at hq hocc
      simp [runTokens, hq, hocc]
  · decide

/-! ### Token streaming relay (`src/Backend/server.py`, `/ask_stream`, lines 60-134)

The worker thread and the SSE generator communicate through two FIFO queues.
Thread interleaving is modeled by an explicit schedule: at each step either
the worker performs its next queue `put`, or the consumer generator performs
one step.  One consumer loop iteration (a `token_queue.get` attempt followed,
except on the sentinel, by draining the status queue) is modeled as one
atomic step; worker puts can land between any two consumer steps, which
covers the reachable queue contents. -/

/-- An event yielded on the SSE response stream. -/
inductive Ev where
  | status (s : String)
  | answer (chunk : String)
deriving DecidableEq

/-- One pending worker action: a status put, a token put (performed by the
streaming callback while the agent runs), or the `None` sentinel put. -/
inductive WAct where
  | wstatus (s : String)
  | wtoken (t : String)
  | wsentinel
deriving DecidableEq

/-- The worker's queue writes in program order (`worker`, lines 69-99):
`thinking` and `searching` are put on the status queue before the agent runs,
the generated tokens land on the token queue, then the `None` sentinel, then
the `finished` status. -/
def workerActs (tokens : List String) : List WAct :=
  WAct.wstatus "thinking" :: WAct.wstatus "searching" ::
    (tokens.map WAct.wtoken ++ [WAct.wsentinel, WAct.wstatus "finished"])

/-- Joint state of the worker, the two queues and the `stream` generator. -/
structure RelayState where
  wrest : List WAct
  tq : List (Option String)
  sq : List String
  initDone : Bool
  answerStarted : Bool
  done : Bool
  out : List Ev
deriving DecidableEq

def initRelay (tokens : List String) : RelayState :=
  { wrest := workerActs tokens, tq := [], sq := [],
    initDone := false, answerStarted := false, done := false, out := [] }

/-- One worker step: perform the next pending queue put. -/
def wstep (st : RelayState) : RelayState :=
  match st.wrest with
  | [] => st
  | a :: rest =>
    match a with
    | .wstatus s => { st with wrest := rest, sq := st.sq ++ [s] }
    | .wtoken t => { st with wrest := rest, tq := st.tq ++ [some t] }
    | .wsentinel => { st with wrest := rest, tq := st.tq ++ [none] }

/-- One consumer step of the `stream` generator (lines 104-130): first the
initial `thinking` yield; afterwards one loop iteration, i.e. one
`token_queue.get` outcome — a token (yield `answering` before the first
chunk, yield the chunk, then drain the status queue), the `None` sentinel
(break out and yield the final `finished`), or a timeout (just drain the
status queue).  Once broken out, the generator emits nothing further. -/
def cstep (st : RelayState) : RelayState :=
  if st.done then st
  else if st.initDone = false then
    { st with initDone := true, out := st.out ++ [Ev.status "thinking"] }
  else
    match st.tq with
    | some t :: rest =>
      { st with
        tq := rest
        answerStarted := true
        sq := []
        out := (st.out ++
          (if st.answerStarted then [] else [Ev.status "answering"]) ++
          [Ev.answer t]) ++ st.sq.map Ev.status }
    | none :: rest =>
      { st with tq := rest, done := true, out := st.out ++ [Ev.status "finished"] }
    | [] => { st with sq := [], out := st.out ++ st.sq.map Ev.status }

/-- Run the relay under a schedule: `true` = worker step, `false` = consumer
step. -/
def relayRun (tokens : List String) (sched : List Bool) : RelayState :=
  sched.foldl (fun st b => if b then wstep st else cstep st) (initRelay tokens)

/-- The statuses among the yielded events, in order. -/
def statusesOf (out : List Ev) : List String :=
  out.filterMap fun e => match e with | .status s => some s | .answer _ => none

/-- `isSubseqOf a b` decides whether `a` is a (not necessarily contiguous)
subsequence of `b`. -/
def isSubseqOf : List String → List String → Bool
  | [], _ => true
  | _ :: _, [] => false
  | a :: as, b :: bs =>
    if a = b then isSubseqOf as bs else isSubseqOf (a :: as) bs

/-- Claim C1 as stated: on every complete run, the yielded statuses follow the
single forward path `thinking → searching → answering → finished` with no
status emitted twice, and the single `finished` status is the last event,
with nothing after it. -/
def relayForwardPathClaim : Prop :=
  ∀ (tokens : List String) (sched : List Bool),
    (relayRun tokens sched).done = true →
    isSubseqOf (statusesOf (relayRun tokens sched).out)
        ["thinking", "searching", "answering", "finished"] = true ∧
    (relayRun tokens sched).out.getLast? = some (Ev.status "finished")

/-- A schedule on which the worker finishes all its queue writes before the
consumer runs its loop. -/
def dupSched : List Bool := [true, true, true, true, true, false, false, false]

theorem statusesOf_append (a b : List Ev) :
    statusesOf (a ++ b) = statusesOf a ++ statusesOf b :=
  List.filterMap_append a b _

theorem statusesOf_map_status (l : List String) :
    statusesOf (l.map Ev.status) = l := by
  induction l with
  | nil => rfl
  | cons s ss ih => simp [statusesOf, List.filterMap_cons] at ih ⊢; exact ih

/-- Invariant of the relay preserved by both kinds of step. -/
def RelayInv (st : RelayState) : Prop :=
  (st.initDone = false → st.out = [] ∧ st.done = false ∧ st.answerStarted = false) ∧
  (st.initDone = true → st.out.head? = some (Ev.status "thinking")) ∧
  (st.done = true → st.out.getLast? = some (Ev.status "finished") ∧ st.initDone = true) ∧
  ((statusesOf st.out).count "answering" = if st.answerStarted then 1 else 0) ∧
  (st.answerStarted = true → st.initDone = true) ∧
  ("answering" ∉ st.sq) ∧
  (∀ s, WAct.wstatus s ∈ st.wrest → s ≠ "answering")

theorem wstep_nil (st : RelayState) (h : st.wrest = []) : wstep st = st := by
  unfold wstep; rw [h]

theorem wstep_status (st : RelayState) (s : String) (rest : List WAct)
    (h : st.wrest = WAct.wstatus s :: rest) :
    wstep st = { st with wrest := rest, sq := st.sq ++ [s] } := by
  unfold wstep; rw [h]

theorem wstep_token (st : RelayState) (t : String) (rest : List WAct)
    (h : st.wrest = WAct.wtoken t :: rest) :
    wstep st = { st with wrest := rest, tq := st.tq ++ [some t] } := by
  unfold wstep; rw [h]

theorem wstep_sentinel (st : RelayState) (rest : List WAct)
    (h : st.wrest = WAct.wsentinel :: rest) :
    wstep st = { st with wrest := rest, tq := st.tq ++ [none] } := by
  unfold wstep; rw [h]

theorem cstep_of_done (st : RelayState) (h : st.done = true) : cstep st = st := by
  unfold cstep; rw [h, if_pos rfl]

theorem cstep_of_fresh (st : RelayState) (h : st.done = false)
    (h2 : st.initDone = false) :
    cstep st = { st with initDone := true, out := st.out ++ [Ev.status "thinking"] } := by
  unfold cstep; rw [h, h2, if_neg (by simp), if_pos rfl]

theorem cstep_of_token (st : RelayState) (t : String) (rest : List (Option String))
    (h : st.done = false) (h2 : st.initDone = true) (h3 : st.tq = some t :: rest) :
    cstep st = { st with
      tq := rest
      answerStarted := true
      sq := []
      out := (st.out ++
        (if st.answerStarted then [] else [Ev.status "answering"]) ++
        [Ev.answer t]) ++ st.sq.map Ev.status } := by
  unfold cstep; rw [h, h2, h3, if_neg (by simp), if_neg (by simp)]

theorem cstep_of_sentinel (st : RelayState) (rest : List (Option String))
    (h : st.done = false) (h2 : st.initDone = true) (h3 : st.tq = none :: rest) :
    cstep st = { st with
      tq := rest
      done := true
      out := st.out ++ [Ev.status "finished"] } := by
  unfold cstep; rw [h, h2, h3, if_neg (by simp), if_neg (by simp)]

theorem cstep_of_timeout (st : RelayState)
    (h : st.done = false) (h2 : st.initDone = true) (h3 : st.tq = []) :
    cstep st = { st with sq := [], out := st.out ++ st.sq.map Ev.status } := by
  unfold cstep; rw [h, h2, h3, if_neg (by simp), if_neg (by simp)]

theorem count_statusesOf_map_eq_zero {sq : List String}
    (h : "answering" ∉ sq) : (statusesOf (sq.map Ev.status)).count "answering" = 0 := by
  rw [statusesOf_map_status]
  exact List.count_eq_zero.mpr h

theorem relayInv_init (tokens : List String) : RelayInv (initRelay tokens) := by
  refine ⟨fun _ => ⟨rfl, rfl, rfl⟩, ?_, ?_, ?_, ?_, ?_, ?_⟩
  · intro hh
    have hh2 : false = true := hh
    exact absurd hh2 (by simp)
  · intro hh
    have hh2 : false = true := hh
    exact absurd hh2 (by simp)
  · show (statusesOf []).count "answering" = if false = true then 1 else 0
    simp [statusesOf]
  · intro hh
    have hh2 : false = true := hh
    exact absurd hh2 (by simp)
  · show "answering" ∉ ([] : List String); simp
  · intro s hs heq
    subst heq
    simp only [initRelay, workerActs, List.mem_cons, List.mem_append, List.mem_map,
      List.mem_singleton] at hs
    rcases hs with h | hs
    · exact absurd h (by decide)
    rcases hs with h | hs
    · exact absurd h (by decide)
    rcases hs with ⟨t, _, ht⟩ | hs
    · exact absurd ht (by simp)
    rcases hs with h | h
    · exact absurd h (by simp)
    · exact absurd h (by decide)

theorem relayInv_wstep {st : RelayState} (h : RelayInv st) : RelayInv (wstep st) := by
  obtain ⟨h1, h2, h3, h4, h5, h6, h7⟩ := h
  cases hw : st.wrest with
  | nil =>
    rw [wstep_nil st hw]
    exact ⟨h1, h2, h3, h4, h5, h6, h7⟩
  | cons a rest =>
    have h7r : ∀ u, WAct.wstatus u ∈ rest → u ≠ "answering" := fun u hu =>
      h7 u (by rw [hw]; exact List.mem_cons_of_mem a hu)
    cases a with
    | wstatus s0 =>
      rw [wstep_status st s0 rest hw]
      refine ⟨h1, h2, h3, h4, h5, ?_, h7r⟩
      intro hmem
      rcases List.mem_append.mp hmem with hm | hm
      · exact h6 hm
      · exact h7 s0 (by rw [hw]; exact List.mem_cons_self _ _)
          (List.mem_singleton.mp hm).symm
    | wtoken t =>
      rw [wstep_token st t rest hw]
      exact ⟨h1, h2, h3, h4, h5, h6, h7r⟩
    | wsentinel =>
      rw [wstep_sentinel st rest hw]
      exact ⟨h1, h2, h3, h4, h5, h6, h7r⟩

theorem relayInv_cstep {st : RelayState} (h : RelayInv st) : RelayInv (cstep st) := by
  obtain ⟨h1, h2, h3, h4, h5, h6, h7⟩ := h
  cases hdone : st.done with
  | true =>
    rw [cstep_of_done st hdone]
    exact ⟨h1, h2, h3, h4, h5, h6, h7⟩
  | false =>
    cases hinit : st.initDone with
    | false =>
      obtain ⟨hout, _, hans⟩ := h1 hinit
      rw [cstep_of_fresh st hdone hinit]
      refine ⟨?_, ?_, ?_, ?_, fun _ => rfl, h6, h7⟩
      · intro hh; exact absurd (hh : true = false) (by simp)
      · intro _
        show (st.out ++ [Ev.status "thinking"]).head? = some (Ev.status "thinking")
        rw [hout]; rfl
      · intro hd
        have hd2 : st.done = true := hd
        rw [hdone] at hd2
        exact absurd hd2 (by simp)
      · show (statusesOf (st.out ++ [Ev.status "thinking"])).count "answering" =
          if st.answerStarted = true then 1 else 0
        rw [hout, hans]
        simp [statusesOf]
    | true =>
      have hhead := h2 hinit
      have hne : st.out ≠ [] := by
        intro hnil; rw [hnil] at hhead; exact absurd hhead (by simp)
      cases htq : st.tq with
      | nil =>
        rw [cstep_of_timeout st hdone hinit htq]
        refine ⟨?_, ?_, ?_, ?_, fun _ => hinit, by simp, h7⟩
        · intro hh
          have hh2 : st.initDone = false := hh
          rw [hinit] at hh2
          exact absurd hh2 (by simp)
        · intro _
          show (st.out ++ st.sq.map Ev.status).head? = some (Ev.status "thinking")
          simp [List.head?_append, hhead]
        · intro hd
          have hd2 : st.done = true := hd
          rw [hdone] at hd2
          exact absurd hd2 (by simp)
        · show (statusesOf (st.out ++ st.sq.map Ev.status)).count "answering" =
            if st.answerStarted = true then 1 else 0
          rw [statusesOf_append, List.count_append,
            count_statusesOf_map_eq_zero h6, Nat.add_zero, h4]
      | cons o rest =>
        cases o with
        | some t =>
          rw [cstep_of_token st t rest hdone hinit htq]
          refine ⟨?_, ?_, ?_, ?_, fun _ => hinit, by simp, h7⟩
          · intro hh
            have hh2 : st.initDone = false := hh
            rw [hinit] at hh2
            exact absurd hh2 (by simp)
          · intro _
            show ((st.out ++
                (if st.answerStarted = true then [] else [Ev.status "answering"]) ++
                [Ev.answer t]) ++ st.sq.map Ev.status).head? = some (Ev.status "thinking")
            simp only [List.append_assoc, List.head?_append, hhead, Option.or_some]
          · intro hd
            have hd2 : st.done = true := hd
            rw [hdone] at hd2
            exact absurd hd2 (by simp)
          · show (statusesOf ((st.out ++
                (if st.answerStarted = true then [] else [Ev.status "answering"]) ++
                [Ev.answer t]) ++ st.sq.map Ev.status)).count "answering" =
              if true = true then 1 else 0
            rw [statusesOf_append, List.count_append,
              count_statusesOf_map_eq_zero h6, Nat.add_zero,
              statusesOf_append, List.count_append,
              statusesOf_append, List.count_append, h4]
            cases has : st.answerStarted with
            | true => simp [statusesOf]
            | false => simp [statusesOf]
        | none =>
          rw [cstep_of_sentinel st rest hdone hinit htq]
          refine ⟨?_, ?_, ?_, ?_, fun _ => hinit, h6, h7⟩
          · intro hh
            have hh2 : st.initDone = false := hh
            rw [hinit] at hh2
            exact absurd hh2 (by simp)
          · intro _
            show (st.out ++ [Ev.status "finished"]).head? = some (Ev.status "thinking")
            simp [List.head?_append, hhead]
          · intro _
            exact ⟨List.getLast?_concat st.out, hinit⟩
          · show (statusesOf (st.out ++ [Ev.status "finished"])).count "answering" =
              if st.answerStarted = true then 1 else 0
            rw [statusesOf_append, List.count_append, h4]
            simp [statusesOf]

theorem relayInv_run (tokens : List String) (sched : List Bool) :
    RelayInv (relayRun tokens sched) := by
  have main : ∀ (l : List Bool) (st : RelayState), RelayInv st →
      RelayInv (l.foldl (fun st b => if b then wstep st else cstep st) st) := by
    intro l
    induction l with
    | nil => intro st h; exact h
    | cons b bs ih =>
      intro st h
      cases b with
      | true => exact ih _ (relayInv_wstep h)
      | false => exact ih _ (relayInv_cstep h)
  exact main sched (initRelay tokens) (relayInv_init tokens)

/-- The events relevant to the position of the `answering` status: the
`answering` status itself and the answer chunks. -/
def answerish (e : Ev) : Bool :=
  match e with
  | .status s => decide (s = "answering")
  | .answer _ => true

theorem filter_answerish_map_status {sq : List String}
    (h : "answering" ∉ sq) : (sq.map Ev.status).filter answerish = [] := by
  rw [List.filter_eq_nil_iff]
  intro e he
  obtain ⟨s, hs, hse⟩ := List.mem_map.mp he
  rw [← hse]
  simp only [answerish, decide_eq_true_eq]
  intro hcontra
  exact h (hcontra ▸ hs)

/-- Positional invariant: before the first token the output holds neither an
`answering` status nor an answer chunk, and afterwards the first such event in
the output is the `answering` status (so every answer chunk is preceded by
it). -/
def RelayPos (st : RelayState) : Prop :=
  (st.answerStarted = false → st.out.filter answerish = []) ∧
  (st.answerStarted = true →
    (st.out.filter answerish).head? = some (Ev.status "answering"))

theorem relayPos_init (tokens : List String) : RelayPos (initRelay tokens) := by
  constructor
  · intro _
    rfl
  · intro hh
    have hh2 : false = true := hh
    exact absurd hh2 (by simp)

theorem relayPos_wstep {st : RelayState} (h : RelayPos st) : RelayPos (wstep st) := by
  obtain ⟨p1, p2⟩ := h
  cases hw : st.wrest with
  | nil => rw [wstep_nil st hw]; exact ⟨p1, p2⟩
  | cons a rest =>
    cases a with
    | wstatus s => rw [wstep_status st s rest hw]; exact ⟨p1, p2⟩
    | wtoken t => rw [wstep_token st t rest hw]; exact ⟨p1, p2⟩
    | wsentinel => rw [wstep_sentinel st rest hw]; exact ⟨p1, p2⟩

theorem relayPos_cstep {st : RelayState} (hinv : RelayInv st) (h : RelayPos st) :
    RelayPos (cstep st) := by
  obtain ⟨i1, i2, i3, i4, i5, i6, i7⟩ := hinv
  obtain ⟨p1, p2⟩ := h
  cases hdone : st.done with
  | true => rw [cstep_of_done st hdone]; exact ⟨p1, p2⟩
  | false =>
    cases hinit : st.initDone with
    | false =>
      obtain ⟨hout, _, hans⟩ := i1 hinit
      rw [cstep_of_fresh st hdone hinit]
      constructor
      · intro _
        show (st.out ++ [Ev.status "thinking"]).filter answerish = []
        rw [hout]
        rfl
      · intro hh
        have hh2 : st.answerStarted = true := hh
        rw [hans] at hh2
        exact absurd hh2 (by simp)
    | true =>
      cases htq : st.tq with
      | nil =>
        rw [cstep_of_timeout st hdone hinit htq]
        constructor
        · intro hh
          have hh2 : st.answerStarted = false := hh
          show (st.out ++ st.sq.map Ev.status).filter answerish = []
          rw [List.filter_append, p1 hh2, filter_answerish_map_status i6]
          rfl
        · intro hh
          have hh2 : st.answerStarted = true := hh
          show ((st.out ++ st.sq.map Ev.status).filter answerish).head? =
            some (Ev.status "answering")
          rw [List.filter_append, filter_answerish_map_status i6, List.append_nil]
          exact p2 hh2
      | cons o rest =>
        cases o with
        | some t =>
          rw [cstep_of_token st t rest hdone hinit htq]
          constructor
          · intro hh
            exact absurd (hh : true = false) (by simp)
          · intro _
            show (((st.out ++
                (if st.answerStarted = true then [] else [Ev.status "answering"]) ++
                [Ev.answer t]) ++ st.sq.map Ev.status).filter answerish).head? =
              some (Ev.status "answering")
            rw [List.filter_append, filter_answerish_map_status i6, List.append_nil,
              List.filter_append, List.filter_append]
            cases has : st.answerStarted with
            | false =>
              rw [p1 has]
              rfl
            | true =>
              rw [if_pos rfl, List.filter_nil, List.append_nil]
              simp only [List.head?_append, p2 has, Option.or_some]
        | none =>
          rw [cstep_of_sentinel st rest hdone hinit htq]
          constructor
          · intro hh
            have hh2 : st.answerStarted = false := hh
            show (st.out ++ [Ev.status "finished"]).filter answerish = []
            rw [List.filter_append, p1 hh2]
            rfl
          · intro hh
            have hh2 : st.answerStarted = true := hh
            show ((st.out ++ [Ev.status "finished"]).filter answerish).head? =
              some (Ev.status "answering")
            have hfin : [Ev.status "finished"].filter answerish = [] := rfl
            rw [List.filter_append, hfin, List.append_nil]
            exact p2 hh2

theorem relayPos_run (tokens : List String) (sched : List Bool) :
    RelayPos (relayRun tokens sched) := by
  have main : ∀ (l : List Bool) (st : RelayState), RelayInv st → RelayPos st →
      RelayInv (l.foldl (fun st b => if b then wstep st else cstep st) st) ∧
      RelayPos (l.foldl (fun st b => if b then wstep st else cstep st) st) := by
    intro l
    induction l with
    | nil => intro st h1 h2; exact ⟨h1, h2⟩
    | cons b bs ih =>
      intro st h1 h2
      cases b with
      | true => exact ih _ (relayInv_wstep h1) (relayPos_wstep h2)
      | false => exact ih _ (relayInv_cstep h1) (relayPos_cstep h1 h2)
  exact (main sched (initRelay tokens) (relayInv_init tokens) (relayPos_init tokens)).2

/-- Claim C1 as stated is false: under the schedule `dupSched` (the worker
completes all its queue writes before the consumer loop runs), the run
completes but yields the status sequence
`[thinking, answering, thinking, searching, finished, finished]` — `thinking`
is emitted twice (the generator's own initial yield plus the relayed worker
status) and `finished` is emitted twice, so the statuses do not follow the
single forward path with exactly one final `finished`. -/
theorem C1_counterexample : ¬ relayForwardPathClaim := by
  intro h
  have hc := h ["a"] dupSched (by decide)
  exact absurd hc.1 (by decide)

/-- Claim C1, amended to what the stream loop actually guarantees on every
complete run: the first yielded event is a `thinking` status, the last yielded
event is a `finished` status with nothing emitted after it, and the
`answering` status is yielded at most once and before the first answer chunk
(every answer chunk in the output is preceded by an `answering` status).
The claim's exactly-once forward-path property fails: the worker's `thinking`
and `searching` statuses are relayed in addition to the generator's own
initial `thinking` yield, so `thinking` (and, on some interleavings,
`finished`) can be emitted twice, out of forward order. -/
theorem C1_stream_terminal_behavior :
    ∀ (tokens : List String) (sched : List Bool),
      (relayRun tokens sched).done = true →
      (relayRun tokens sched).out.head? = some (Ev.status "thinking") ∧
      (relayRun tokens sched).out.getLast? = some (Ev.status "finished") ∧
      (statusesOf (relayRun tokens sched).out).count "answering" ≤ 1 ∧
      (∀ (l1 : List Ev) (t : String) (l2 : List Ev),
        (relayRun tokens sched).out = l1 ++ Ev.answer t :: l2 →
        Ev.status "answering" ∈ l1) := by
  intro tokens sched hdone
  obtain ⟨h1, h2, h3, h4, h5, h6, h7⟩ := relayInv_run tokens sched
  obtain ⟨p1, p2⟩ := relayPos_run tokens sched
  obtain ⟨hlast, hinit⟩ := h3 hdone
  refine ⟨h2 hinit, hlast, ?_, ?_⟩
  · rw [h4]
    cases (relayRun tokens sched).answerStarted <;> simp
  · intro l1 t l2 hsplit
    cases has : (relayRun tokens sched).answerStarted with
    | false =>
      have hfil := p1 has
      have hmem : Ev.answer t ∈ (relayRun tokens sched).out := by
        rw [hsplit]
        exact List.mem_append_right _ (List.mem_cons_self _ _)
      have hna := List.filter_eq_nil_iff.mp hfil (Ev.answer t) hmem
      exact absurd rfl hna
    | true =>
      have hhead := p2 has
      rw [hsplit, List.filter_append] at hhead
      have hfc : (Ev.answer t :: l2).filter answerish =
          Ev.answer t :: l2.filter answerish := rfl
      rw [hfc] at hhead
      cases hfl : l1.filter answerish with
      | nil =>
        rw [hfl] at hhead
        exact absurd hhead (by simp)
      | cons e es =>
        rw [hfl] at hhead
        have he : e = Ev.status "answering" := by simpa using hhead
        have hef : e ∈ l1.filter answerish := by
          rw [hfl]
          exact List.mem_cons_self e es
        rw [he] at hef
        exact List.mem_of_mem_filter hef

/-- Witness for the amended C1 theorem at the concrete run `["a"]`/`dupSched`,
instantiating the positional conjunct at the run's single answer chunk. -/
theorem C1_stream_terminal_behavior_witness :
    (relayRun ["a"] dupSched).out.head? = some (Ev.status "thinking") ∧
    (relayRun ["a"] dupSched).out.getLast? = some (Ev.status "finished") ∧
    (statusesOf (relayRun ["a"] dupSched).out).count "answering" ≤ 1 ∧
    Ev.status "answering" ∈ [Ev.status "thinking", Ev.status "answering"] := by
  have h := C1_stream_terminal_behavior ["a"] dupSched (by decide)
  exact ⟨h.1, h.2.1, h.2.2.1,
    h.2.2.2 [Ev.status "thinking", Ev.status "answering"] "a"
      [Ev.status "thinking", Ev.status "searching", Ev.status "finished",
        Ev.status "finished"] (by decide)⟩

/-! ### Dual-track search executor (`execute_dual_track_search`, lines 84-186) -/

/-- A retrieval row as used by the agent (a Python dict).  `similarity` and
`cohere_score` are optional because the code reads them with `.get(…, 0)`;
`cohere_score` and `rerank_position` are written by the rerank step. -/
structure Record where
  id : Nat
  content : String
  source_url : Option String := none
  page_title : Option String := none
  topic_heading : Option String := none
  similarity : Option Rat := none
  cohere_score : Option Rat := none
  rerank_position : Option Nat := none
deriving DecidableEq

/-- `result.get('similarity', 0)`. -/
def Record.sim (r : Record) : Rat := r.similarity.getD 0

/-- `result.get('cohere_score', 0)`. -/
def Record.coh (r : Record) : Rat := r.cohere_score.getD 0

/-- One entry of a Cohere rerank response: an original-document index and a
relevance score. -/
structure RerankEntry where
  index : Nat
  relevance_score : Rat
deriving DecidableEq

/-- Oracles for the external calls made by one `execute_dual_track_search`
invocation, plus the elapsed wall-clock time it observes.  An `Except.error e`
value models the call raising an exception with `str(…) = e`. -/
structure SearchOracles where
  embed : Except String Unit
  simple : Except String (List Record)
  title : Except String (List Record)
  rerank : String → List String → Nat → Except String (List RerankEntry)
  elapsed : Rat

/-- The dict returned by `execute_dual_track_search`: the success shape
additionally carries the two `total_*` keys, the failure shape carries
`error`. -/
structure TrackResult where
  query : String
  search_id : Option String
  results : List Record
  search_time : Rat
  error : Option String := none
  total_before_rerank : Option Nat := none
  total_after_rerank : Option Nat := none
deriving DecidableEq

/-- The single-quote character, used in the Python error message format. -/
def quoteChar : String := String.singleton (Char.ofNat 39)

/-- The f-string of line 178: `Search failed for {query}: {str(e)}` with the
query wrapped in single quotes. -/
def searchFailMsg (query e : String) : String :=
  "Search failed for " ++ quoteChar ++ query ++ quoteChar ++ ": " ++ e

/-- The error dict built by the outer `except` handler (lines 180-186). -/
def errorResult (query : String) (search_id : Option String) (e : String)
    (t : Rat) : TrackResult :=
  { query := query, search_id := search_id, results := [], search_time := t,
    error := some (searchFailMsg query e) }

/-- Lines 119-126: concatenate the two track lists and keep the first
occurrence of each id (`seen_ids`). -/
def dedupById : List Nat → List Record → List Record
  | _, [] => []
  | seen, r :: rest =>
    if r.id ∈ seen then dedupById seen rest
    else r :: dedupById (r.id :: seen) rest

/-- Lines 146-151: map the rerank response back onto the merged rows, setting
`cohere_score` and `rerank_position := idx + 1`.  `none` models the
`IndexError` raised by an out-of-range response index, which the surrounding
`except` turns into the similarity fallback.  (Python mutates the rows it has
already visited before such an error; that partial mutation of the fallback
input is not modeled — no claim below concerns an out-of-range response.) -/
def applyRerank (combined : List Record) (rs : List RerankEntry) :
    Option (List Record) :=
  rs.enum.mapM fun p =>
    (combined[p.2.index]?).map fun r =>
      { r with
        cohere_score := some p.2.relevance_score
        rerank_position := some (p.1 + 1) }

/-- Lines 159-161: `sorted(combined_results, key=lambda x:
x.get('similarity', 0), reverse=True)[:8]`.  Python's sort is stable and
`reverse=True` reverses each comparison. -/
def simFallback (combined : List Record) : List Record :=
  (combined.mergeSort (fun a b => decide (b.sim ≤ a.sim))).take 8

/-- `execute_dual_track_search` (lines 84-186).  The two track futures are
resolved in program order (`future_simple.result()` before
`future_title.result()`), so a simple-track failure surfaces first; any
failure of the embed or track calls reaches the outer handler. -/
def execute_dual_track_search (O : SearchOracles) (query : String)
    (search_id : Option String) : TrackResult :=
  match O.embed with
  | .error e => errorResult query search_id e O.elapsed
  | .ok _ =>
  match O.simple with
  | .error e => errorResult query search_id e O.elapsed
  | .ok simple_results =>
  match O.title with
  | .error e => errorResult query search_id e O.elapsed
  | .ok title_results =>
    let combined_results := dedupById [] (simple_results ++ title_results)
    let final_results :=
      if combined_results.isEmpty then []
      else
        match O.rerank query (combined_results.map Record.content)
            (min 10 combined_results.length) with
        | .ok rs =>
          (applyRerank combined_results rs).getD (simFallback combined_results)
        | .error _ => simFallback combined_results
    { query := query
      search_id := search_id
      results := final_results
      search_time := O.elapsed
      total_before_rerank := some combined_results.length
      total_after_rerank := some final_results.length }

/-- The first failure among the calls whose exceptions reach the outer
handler, in program order: embedding, then the simple track, then the title
track. -/
def outerFailure (O : SearchOracles) : Option String :=
  match O.embed with
  | .error e => some e
  | .ok _ =>
    match O.simple with
    | .error e => some e
    | .ok _ =>
      match O.title with
      | .error e => some e
      | .ok _ => none

/-- Claim C2 as stated: when exactly one track's retrieval call fails, the
executor degrades to the other track's results — i.e. it behaves as if the
failed track had returned no rows, and in particular reports no error. -/
def dualTrackDegradationClaim : Prop :=
  ∀ (O : SearchOracles) (query : String) (sid : Option String) (e : String)
    (rows : List Record),
    O.embed = Except.ok () →
    ((O.simple = Except.error e ∧ O.title = Except.ok rows) ∨
     (O.title = Except.error e ∧ O.simple = Except.ok rows)) →
    execute_dual_track_search O query sid ≠ errorResult query sid e O.elapsed ∧
    (execute_dual_track_search O query sid).error = none

/-- A concrete oracle assignment: the simple track fails, the title track
succeeds with one row. -/
def failingSimpleO : SearchOracles :=
  { embed := Except.ok ()
    simple := Except.error "boom"
    title := Except.ok [{ id := 5, content := "row", similarity := some 1 }]
    rerank := fun _ _ _ => Except.error "unused"
    elapsed := 0 }

/-- Claim C2 as stated is false: with the simple track failing and the title
track returning a row, the executor does not degrade to the title track — the
exception re-raised by `future_simple.result()` reaches the outer handler,
which returns the error-populated result with empty records. -/
theorem C2_counterexample : ¬ dualTrackDegradationClaim := by
  intro h
  have hc := h failingSimpleO "q" (some "Q1") "boom"
    [{ id := 5, content := "row", similarity := some 1 }] rfl (Or.inl ⟨rfl, rfl⟩)
  exact hc.1 (by decide)

/-- Claim C2, amended: when either track's retrieval call fails (even though
the other track succeeded), the executor does not degrade to the surviving
track; the failure propagates out of the worker future into the executor's
outer handler, which returns an error-populated `TrackResult` with empty
records, discarding the successful track's rows. -/
theorem C2_track_failure_fails_whole_search :
    ∀ (O : SearchOracles) (query : String) (sid : Option String) (e : String),
      O.embed = Except.ok () →
      (O.simple = Except.error e ∨
        (∃ rows, O.simple = Except.ok rows ∧ O.title = Except.error e)) →
      execute_dual_track_search O query sid = errorResult query sid e O.elapsed := by
  intro O query sid e hemb hcase
  unfold execute_dual_track_search
  rw [hemb]
  rcases hcase with hs | ⟨rows, hs, ht⟩
  · rw [hs]
  · rw [hs, ht]

/-- Witness for the amended C2 theorem on the concrete failing oracle. -/
theorem C2_track_failure_fails_whole_search_witness :
    execute_dual_track_search failingSimpleO "wandering" (some "Q1") =
      errorResult "wandering" (some "Q1") "boom" failingSimpleO.elapsed :=
  C2_track_failure_fails_whole_search failingSimpleO "wandering" (some "Q1")
    "boom" rfl (Or.inl rfl)

/-- Claim C6: every exception of the embedding or retrieval calls is caught by
the executor's outer handler and converted into a result dict that carries
the query, the search id, the formatted error message, an empty record list
and the elapsed search time; and on every oracle outcome whatsoever the
executor returns a well-formed `TrackResult` carrying its query, search id
and elapsed time — it never propagates an exception to the orchestrator
(in the embedding, `execute_dual_track_search` is a total function). -/
theorem C6_executor_exception_contract :
    ∀ (O : SearchOracles) (query : String) (sid : Option String),
      ((execute_dual_track_search O query sid).query = query ∧
       (execute_dual_track_search O query sid).search_id = sid ∧
       (execute_dual_track_search O query sid).search_time = O.elapsed) ∧
      (∀ e, outerFailure O = some e →
        execute_dual_track_search O query sid = errorResult query sid e O.elapsed) := by
  intro O query sid
  obtain ⟨emb, smp, ttl, rr, el⟩ := O
  constructor
  · cases emb <;> cases smp <;> cases ttl <;>
      simp [execute_dual_track_search, errorResult]
  · intro e hfail
    cases emb <;> cases smp <;> cases ttl <;>
      simp_all [execute_dual_track_search, errorResult, outerFailure]

/-- Oracles where the embedding call fails. -/
def failingEmbedO : SearchOracles :=
  { embed := Except.error "connection reset"
    simple := Except.ok []
    title := Except.ok []
    rerank := fun _ _ _ => Except.error "unused"
    elapsed := 2 }

/-- Witness for C6 at a concrete embedding failure. -/
theorem C6_executor_exception_contract_witness :
    execute_dual_track_search failingEmbedO "diet" (some "Q2") =
      errorResult "diet" (some "Q2") "connection reset" failingEmbedO.elapsed :=
  (C6_executor_exception_contract failingEmbedO "diet" (some "Q2")).2
    "connection reset" rfl

/-- Claim C7: when both tracks succeed, the merged deduplicated row set is
non-empty, and the Cohere rerank call fails, the executor returns the merged
rows sorted by similarity descending and truncated to 8, with the `error`
field unset — only the rerank step degrades, the search still succeeds. -/
theorem C7_rerank_failure_soft :
    ∀ (O : SearchOracles) (query : String) (sid : Option String)
      (srows trows : List Record) (e : String),
      O.embed = Except.ok () → O.simple = Except.ok srows →
      O.title = Except.ok trows →
      dedupById [] (srows ++ trows) ≠ [] →
      O.rerank query ((dedupById [] (srows ++ trows)).map Record.content)
          (min 10 (dedupById [] (srows ++ trows)).length) = Except.error e →
      (execute_dual_track_search O query sid).results =
        simFallback (dedupById [] (srows ++ trows)) ∧
      (execute_dual_track_search O query sid).error = none := by
  intro O query sid srows trows e hemb hs ht hne hr
  have hie : (dedupById [] (srows ++ trows)).isEmpty = false := by
    cases hl : dedupById [] (srows ++ trows) with
    | nil => exact absurd hl hne
    | cons a as => rfl
  have hstep : execute_dual_track_search O query sid =
      { query := query
        search_id := sid
        results := simFallback (dedupById [] (srows ++ trows))
        search_time := O.elapsed
        total_before_rerank := some (dedupById [] (srows ++ trows)).length
        total_after_rerank :=
          some (simFallback (dedupById [] (srows ++ trows))).length } := by
    unfold execute_dual_track_search
    rw [hemb, hs, ht]
    simp only [hie, Bool.false_eq_true, if_false, hr]
  rw [hstep]
  exact ⟨rfl, rfl⟩

/-- Scenario C oracles: three rows from the simple track and three from the
title track with one overlap (five merged rows), and a failing reranker. -/
def scenarioCO : SearchOracles :=
  { embed := Except.ok ()
    simple := Except.ok
      [{ id := 1, content := "r1", similarity := some 3 },
       { id := 2, content := "r2", similarity := some 9 },
       { id := 3, content := "r3", similarity := some 5 }]
    title := Except.ok
      [{ id := 3, content := "r3", similarity := some 5 },
       { id := 4, content := "r4", similarity := some 7 },
       { id := 5, content := "r5", similarity := some 1 }]
    rerank := fun _ _ _ => Except.error "rate limited"
    elapsed := 1 }

/-- Witness for C7 on the Scenario C oracles (five merged rows, rerank call
fails, results fall back to top-8 by similarity, no error). -/
theorem C7_rerank_failure_soft_witness :
    (execute_dual_track_search scenarioCO "mealtime help" (some "Q1")).results =
      simFallback (dedupById []
        ([{ id := 1, content := "r1", similarity := some 3 },
          { id := 2, content := "r2", similarity := some 9 },
          { id := 3, content := "r3", similarity := some 5 }] ++
         [{ id := 3, content := "r3", similarity := some 5 },
          { id := 4, content := "r4", similarity := some 7 },
          { id := 5, content := "r5", similarity := some 1 }])) ∧
    (execute_dual_track_search scenarioCO "mealtime help" (some "Q1")).error = none :=
  C7_rerank_failure_soft scenarioCO "mealtime help" (some "Q1") _ _ "rate limited"
    rfl rfl rfl (by decide) rfl

/-! ### Fan-out orchestrator (`parallel_comprehensive_search`, lines 240-258)

The search ids are the f-strings `Q1, Q2, …`; recovering submission order
from them needs injectivity of decimal numerals, proved below from
`Nat.toDigitsCore`. -/

theorem toDigitsCore_acc (b : Nat) :
    ∀ (fuel n : Nat) (ds : List Char),
      Nat.toDigitsCore b fuel n ds = Nat.toDigitsCore b fuel n [] ++ ds := by
  intro fuel
  induction fuel with
  | zero => intro n ds; rfl
  | succ f ih =>
    intro n ds
    simp only [Nat.toDigitsCore]
    by_cases h0 : n / b = 0
    · rw [if_pos h0, if_pos h0]; rfl
    · rw [if_neg h0, if_neg h0]
      rw [ih (n / b) (Nat.digitChar (n % b) :: ds),
        ih (n / b) [Nat.digitChar (n % b)]]
      simp

/-- The numeric value of a decimal digit character. -/
def digitVal (c : Char) : Nat := c.toNat - 48

/-- The number denoted by a list of decimal digit characters. -/
def digitsVal (ds : List Char) : Nat := ds.foldl (fun a c => a * 10 + digitVal c) 0

theorem digitVal_digitChar (d : Nat) (h : d < 10) :
    digitVal (Nat.digitChar d) = d := by
  interval_cases d <;> decide

theorem digitsVal_append (ds : List Char) (c : Char) :
    digitsVal (ds ++ [c]) = digitsVal ds * 10 + digitVal c := by
  simp [digitsVal, List.foldl_append]

theorem digitsVal_toDigitsCore :
    ∀ (fuel n : Nat), n < fuel →
      digitsVal (Nat.toDigitsCore 10 fuel n []) = n := by
  intro fuel
  induction fuel with
  | zero => intro n h; exact absurd h (Nat.not_lt_zero n)
  | succ f ih =>
    intro n h
    simp only [Nat.toDigitsCore]
    by_cases h0 : n / 10 = 0
    · rw [if_pos h0]
      have hn10 : n < 10 := (Nat.div_eq_zero_iff (by norm_num)).mp h0
      have hd : digitsVal [Nat.digitChar (n % 10)] = n % 10 := by
        simp [digitsVal, digitVal_digitChar (n % 10) (Nat.mod_lt n (by norm_num))]
      rw [hd, Nat.mod_eq_of_lt hn10]
    · rw [if_neg h0]
      rw [toDigitsCore_acc 10 f (n / 10) [Nat.digitChar (n % 10)]]
      rw [digitsVal_append]
      have hpos : 0 < n := by
        rcases Nat.eq_zero_or_pos n with hz | hp
        · subst hz; simp at h0
        · exact hp
      have hlt : n / 10 < f :=
        Nat.lt_of_lt_of_le (Nat.div_lt_self hpos (by norm_num))
          (Nat.lt_succ_iff.mp h)
      rw [ih (n / 10) hlt, digitVal_digitChar (n % 10) (Nat.mod_lt n (by norm_num))]
      have := Nat.div_add_mod n 10
      omega

theorem natRepr_inj {m n : Nat} (h : Nat.repr m = Nat.repr n) : m = n := by
  have hdata : Nat.toDigits 10 m = Nat.toDigits 10 n := by
    have hd := congrArg String.data h
    simpa [Nat.repr, List.asString] using hd
  simp only [Nat.toDigits] at hdata
  have hm := digitsVal_toDigitsCore (m + 1) m (Nat.lt_succ_self m)
  have hn := digitsVal_toDigitsCore (n + 1) n (Nat.lt_succ_self n)
  rw [← hm, ← hn, hdata]

/-- `f"Q{i+1}"`: the search id of the i-th submitted sub-query (0-based). -/
def qid (i : Nat) : String := "Q" ++ Nat.repr (i + 1)

theorem qid_inj {i j : Nat} (h : qid i = qid j) : i = j := by
  have hdata := congrArg String.data h
  simp only [qid, String.data_append] at hdata
  have hrepr : (Nat.repr (i + 1)).data = (Nat.repr (j + 1)).data :=
    List.append_cancel_left hdata
  have := natRepr_inj (String.ext hrepr)
  omega

/-- Lines 243-248: submit one executor task per sub-query, in submission
order, with ids `Q1, Q2, …`. -/
def submittedResults (O : Nat → SearchOracles) (queries : List String) :
    List TrackResult :=
  queries.enum.map fun p => execute_dual_track_search (O p.1) p.2 (some (qid p.1))

/-- Lines 257-258: the sort key
`search_id_to_order.get(x.get('search_id', 'Q999'), 999)` (the `search_id`
key is always present in a result dict, so the dict lookup defaults to 999
only for ids outside `Q1 … Qn` or a `None` id). -/
def searchKey (n : Nat) (r : TrackResult) : Nat :=
  match r.search_id with
  | none => 999
  | some sid => (((List.range n).find? fun i => decide (qid i = sid))).getD 999

/-- Lines 250-258: results are collected in completion order — an arbitrary
permutation of the submitted tasks — and then sorted back into submission
order by the search-id key with Python's stable `list.sort`. -/
def fanOutResults (O : Nat → SearchOracles) (queries : List String)
    (completionOrder : List Nat) : List TrackResult :=
  (completionOrder.filterMap fun i => (submittedResults O queries)[i]?).mergeSort
    fun a b => decide (searchKey queries.length a ≤ searchKey queries.length b)

theorem exec_search_id (O : SearchOracles) (q : String) (sid : Option String) :
    (execute_dual_track_search O q sid).search_id = sid := by
  obtain ⟨emb, smp, ttl, rr, el⟩ := O
  cases emb <;> cases smp <;> cases ttl <;>
    simp [execute_dual_track_search, errorResult]

theorem find?_eq_some_of_unique {l : List Nat} {p : Nat → Bool} {i : Nat}
    (hiff : ∀ j ∈ l, p j = true ↔ j = i) (hmem : i ∈ l) :
    l.find? p = some i := by
  induction l with
  | nil => exact absurd hmem (by simp)
  | cons a as ih =>
    cases hp : p a with
    | true =>
      rw [List.find?_cons_of_pos _ hp]
      have : a = i := (hiff a (List.mem_cons_self a as)).mp hp
      rw [this]
    | false =>
      rw [List.find?_cons_of_neg _ (by simp [hp])]
      have hai : a ≠ i := by
        intro hcontra
        have := (hiff a (List.mem_cons_self a as)).mpr hcontra
        rw [hp] at this
        exact absurd this (by simp)
      have hmem' : i ∈ as := by
        rcases List.mem_cons.mp hmem with hcase | hcase
        · exact absurd hcase.symm hai
        · exact hcase
      exact ih (fun j hj => hiff j (List.mem_cons_of_mem a hj)) hmem'

theorem searchKey_qid {n i : Nat} (hi : i < n) (r : TrackResult)
    (hr : r.search_id = some (qid i)) : searchKey n r = i := by
  unfold searchKey
  rw [hr]
  show (((List.range n).find? fun j => decide (qid j = qid i))).getD 999 = i
  have : ((List.range n).find? fun j => decide (qid j = qid i)) = some i := by
    apply find?_eq_some_of_unique
    · intro j _
      constructor
      · intro hj
        exact qid_inj (of_decide_eq_true hj)
      · intro hj
        subst hj
        simp
    · exact List.mem_range.mpr hi
  rw [this]
  rfl

theorem le_fst_of_mem_enumFrom {α : Type} :
    ∀ (l : List α) (k : Nat) (p : Nat × α), p ∈ l.enumFrom k → k ≤ p.1 := by
  intro l
  induction l with
  | nil => intro k p hp; simp [List.enumFrom] at hp
  | cons x xs ih =>
    intro k p hp
    rw [List.enumFrom_cons] at hp
    rcases List.mem_cons.mp hp with h | h
    · subst h; exact Nat.le_refl k
    · exact Nat.le_of_succ_le (ih (k + 1) p h)

theorem fst_lt_of_mem_enumFrom {α : Type} :
    ∀ (l : List α) (k : Nat) (p : Nat × α), p ∈ l.enumFrom k → p.1 < k + l.length := by
  intro l
  induction l with
  | nil => intro k p hp; simp [List.enumFrom] at hp
  | cons x xs ih =>
    intro k p hp
    rw [List.enumFrom_cons] at hp
    rcases List.mem_cons.mp hp with h | h
    · subst h; simp
    · have := ih (k + 1) p h
      simp only [List.length_cons]
      omega

theorem pairwise_fst_lt_enumFrom {α : Type} :
    ∀ (l : List α) (k : Nat), (l.enumFrom k).Pairwise fun p q => p.1 < q.1 := by
  intro l
  induction l with
  | nil => intro k; simp [List.enumFrom]
  | cons x xs ih =>
    intro k
    rw [List.enumFrom_cons]
    refine List.Pairwise.cons ?_ (ih (k + 1))
    intro q hq
    exact Nat.lt_of_succ_le (le_fst_of_mem_enumFrom xs (k + 1) q hq)

theorem range_filterMap_getElem {α : Type} (xs : List α) :
    (List.range xs.length).filterMap (fun i => xs[i]?) = xs := by
  induction xs using List.reverseRecOn with
  | nil => rfl
  | append_singleton ys y ih =>
    have hlen : (ys ++ [y]).length = ys.length + 1 := by simp
    rw [hlen, List.range_succ, List.filterMap_append]
    have h1 : (List.range ys.length).filterMap (fun i => (ys ++ [y])[i]?) =
        (List.range ys.length).filterMap (fun i => ys[i]?) := by
      apply List.filterMap_congr
      intro i hi
      exact List.getElem?_append_left (List.mem_range.mp hi)
    have h2 : ([ys.length] : List Nat).filterMap (fun i => (ys ++ [y])[i]?) = [y] := by
      simp [List.filterMap_cons, List.getElem?_concat_length]
    rw [h1, ih, h2]

/-- Claim C4: for every non-empty sub-query list and every completion order
(any permutation of the submitted task indices), the collected result list
has length exactly `n`, no matter how many individual searches failed, and
after the key-sort it equals the submission-order list
`[execute_dual_track_search(queries[i], Qi+1)]`. -/
theorem C4_fanout_length_and_order :
    ∀ (O : Nat → SearchOracles) (queries : List String)
      (completionOrder : List Nat),
      queries ≠ [] →
      completionOrder.Perm (List.range queries.length) →
      (fanOutResults O queries completionOrder).length = queries.length ∧
      fanOutResults O queries completionOrder = submittedResults O queries := by
  intro O queries comp hne hperm
  have hsublen : (submittedResults O queries).length = queries.length := by
    simp [submittedResults]
  have hcollperm : (comp.filterMap fun i =>
      (submittedResults O queries)[i]?).Perm (submittedResults O queries) := by
    have h1 := hperm.filterMap fun i => (submittedResults O queries)[i]?
    have h2 : ((List.range queries.length).filterMap
        fun i => (submittedResults O queries)[i]?) = submittedResults O queries := by
      rw [← hsublen]
      exact range_filterMap_getElem (submittedResults O queries)
    rw [h2] at h1
    exact h1
  have hkey : ∀ p ∈ queries.enum,
      searchKey queries.length
        (execute_dual_track_search (O p.1) p.2 (some (qid p.1))) = p.1 := by
    intro p hp
    have hplt : p.1 < queries.length := by
      have := fst_lt_of_mem_enumFrom queries 0 p hp
      simpa using this
    exact searchKey_qid hplt _ (exec_search_id _ _ _)
  have hpair : (submittedResults O queries).Pairwise
      fun a b => searchKey queries.length a < searchKey queries.length b := by
    unfold submittedResults
    rw [List.pairwise_map]
    have henum : queries.enum.Pairwise fun p q => p.1 < q.1 :=
      pairwise_fst_lt_enumFrom queries 0
    refine henum.imp_of_mem ?_
    intro a b ha hb hr
    rw [hkey a ha, hkey b hb]
    exact hr
  have hsortperm : (fanOutResults O queries comp).Perm (submittedResults O queries) := by
    unfold fanOutResults
    exact (List.mergeSort_perm _ _).trans hcollperm
  refine ⟨by rw [hsortperm.length_eq, hsublen], ?_⟩
  have htrans : ∀ (a b c : TrackResult),
      (decide (searchKey queries.length a ≤ searchKey queries.length b)) = true →
      (decide (searchKey queries.length b ≤ searchKey queries.length c)) = true →
      (decide (searchKey queries.length a ≤ searchKey queries.length c)) = true := by
    intro a b c hab hbc
    simp only [decide_eq_true_eq] at hab hbc ⊢
    omega
  have htotal : ∀ (a b : TrackResult),
      ((decide (searchKey queries.length a ≤ searchKey queries.length b)) ||
       (decide (searchKey queries.length b ≤ searchKey queries.length a))) = true := by
    intro a b
    simp only [Bool.or_eq_true, decide_eq_true_eq]
    omega
  have hsorted := List.sorted_mergeSort htrans htotal
    (comp.filterMap fun i => (submittedResults O queries)[i]?)
  have hne_sub : (submittedResults O queries).Pairwise
      fun a b => searchKey queries.length a ≠ searchKey queries.length b :=
    hpair.imp fun h => Nat.ne_of_lt h
  have hne_sorted : (fanOutResults O queries comp).Pairwise
      fun a b => searchKey queries.length a ≠ searchKey queries.length b := by
    refine (hsortperm.pairwise_iff ?_).mpr hne_sub
    intro x y h
    exact h.symm
  have hstrict : (fanOutResults O queries comp).Pairwise
      fun a b => searchKey queries.length a < searchKey queries.length b := by
    have hand := List.Pairwise.and hsorted hne_sorted
    refine hand.imp ?_
    intro a b hab
    obtain ⟨hle2, hne2⟩ := hab
    simp only [decide_eq_true_eq] at hle2
    omega
  haveI : IsAntisymm TrackResult
      (fun a b => searchKey queries.length a < searchKey queries.length b) :=
    ⟨fun a b h1 h2 => absurd (Nat.lt_trans h1 h2) (Nat.lt_irrefl _)⟩
  exact List.eq_of_perm_of_sorted hsortperm hstrict hpair

/-- Witness for C4: two sub-queries, one failing oracle, completion in
reversed order; the orchestrator still returns both results in submission
order. -/
theorem C4_fanout_length_and_order_witness :
    (fanOutResults (fun i => if i = 0 then failingEmbedO else scenarioCO)
        ["eating problems", "night wandering"] [1, 0]).length = 2 ∧
    fanOutResults (fun i => if i = 0 then failingEmbedO else scenarioCO)
        ["eating problems", "night wandering"] [1, 0] =
      submittedResults (fun i => if i = 0 then failingEmbedO else scenarioCO)
        ["eating problems", "night wandering"] :=
  C4_fanout_length_and_order _ _ [1, 0] (by decide) (by decide)

/-! ### Cross-query deduplication and score aggregation (lines 261-319) -/

/-- One visit of the nested loop of lines 270-298: a row of one track result
together with the owning sub-query's text and search id. -/
structure Appearance where
  query : String
  search_id : Option String
  row : Record
deriving DecidableEq

/-- All row visits of the nested loop, in visit order. -/
def appearancesOf (srs : List TrackResult) : List Appearance :=
  srs.flatMap fun sr => sr.results.map fun r =>
    { query := sr.query, search_id := sr.search_id, row := r }

/-- One `chunk_groups[chunk_id]` entry. -/
structure DedupGroup where
  chunk_data : Record
  source_queries : List String
  source_query_ids : List (Option String)
  best_similarity : Rat
  best_cohere : Rat
deriving DecidableEq

/-- The in-place update of the existing group of `a.row.id` (lines 287-298):
append to both provenance lists, raise the best scores. -/
def updEntry (a : Appearance) (g : Nat × DedupGroup) : Nat × DedupGroup :=
  if g.1 = a.row.id then
    (g.1, { g.2 with
      source_queries := g.2.source_queries ++ [a.query]
      source_query_ids := g.2.source_query_ids ++ [a.search_id]
      best_similarity := max g.2.best_similarity a.row.sim
      best_cohere := max g.2.best_cohere a.row.coh })
  else g

/-- The group created by the `defaultdict` on first sight of an id
(lines 283-298 for a fresh id): `chunk_data` is a copy of the row, the
provenance lists start with this appearance, and the best scores are the
defaults 0 raised by this row's scores. -/
def newEntry (a : Appearance) : Nat × DedupGroup :=
  (a.row.id,
    { chunk_data := a.row
      source_queries := [a.query]
      source_query_ids := [a.search_id]
      best_similarity := max 0 a.row.sim
      best_cohere := max 0 a.row.coh })

def aggStep (groups : List (Nat × DedupGroup)) (a : Appearance) :
    List (Nat × DedupGroup) :=
  if groups.any fun g => decide (g.1 = a.row.id) then groups.map (updEntry a)
  else groups ++ [newEntry a]

/-- `chunk_groups` after the whole nested loop (lines 261-298): the nested
iteration visits exactly `appearancesOf srs` in order. -/
def aggregate (srs : List TrackResult) : List (Nat × DedupGroup) :=
  (appearancesOf srs).foldl aggStep []

/-- A deduplicated chunk: the group's `chunk_data` dict after lines 300-315
added the dedup metadata, plus the two fields the final rerank may add. -/
structure Chunk where
  row : Record
  retrieved_by_queries : List String
  retrieved_by_query_ids : List (Option String)
  retrieval_count : Nat
  unique_query_count : Nat
  best_similarity : Rat
  best_cohere_score : Rat
  final_cohere_score : Option Rat := none
  final_rank : Option Nat := none
deriving DecidableEq

/-- Lines 302-315.  Python's `list(set(…))` has unspecified order; only its
cardinality is constrained by the claims, and `dedup` produces a list with
the same distinct members.  The `if chunk:` guard is always true because
`chunk_data` is set on first access of every group. -/
def mkChunk (g : DedupGroup) : Chunk :=
  { row := g.chunk_data
    retrieved_by_queries := g.source_queries.dedup
    retrieved_by_query_ids := g.source_query_ids.dedup
    retrieval_count := g.source_queries.length
    unique_query_count := g.source_queries.dedup.length
    best_similarity := g.best_similarity
    best_cohere_score := g.best_cohere }

/-- `deduplicated_chunks` (lines 300-315), in group insertion order. -/
def deduplicated_chunks (srs : List TrackResult) : List Chunk :=
  (aggregate srs).map fun g => mkChunk g.2

/-- The appearances of one record id, in visit order. -/
def filterById (l : List Appearance) (id : Nat) : List Appearance :=
  l.filter fun a => decide (a.row.id = id)

/-- The running maximum (starting from the Python default 0) of the
similarities of a list of appearances. -/
def maxSimOf (l : List Appearance) : Rat :=
  l.foldl (fun b a => max b a.row.sim) 0

/-- The running maximum (starting from 0) of the rerank scores. -/
def maxCohOf (l : List Appearance) : Rat :=
  l.foldl (fun b a => max b a.row.coh) 0

theorem init_le_foldl_max (f : Appearance → Rat) :
    ∀ (l : List Appearance) (init : Rat),
      init ≤ l.foldl (fun b x => max b (f x)) init := by
  intro l
  induction l with
  | nil => intro init; exact le_refl init
  | cons x xs ih =>
    intro init
    exact le_trans (le_max_left init (f x)) (ih (max init (f x)))

theorem mem_le_foldl_max (f : Appearance → Rat) :
    ∀ (l : List Appearance) (init : Rat) (a : Appearance), a ∈ l →
      f a ≤ l.foldl (fun b x => max b (f x)) init := by
  intro l
  induction l with
  | nil => intro init a ha; exact absurd ha (by simp)
  | cons x xs ih =>
    intro init a ha
    rcases List.mem_cons.mp ha with h | h
    · subst h
      exact le_trans (le_max_right init (f a)) (init_le_foldl_max f xs (max init (f a)))
    · exact ih (max init (f x)) a h

theorem foldl_max_append (f : Appearance → Rat) (l : List Appearance)
    (init : Rat) (a : Appearance) :
    (l ++ [a]).foldl (fun b x => max b (f x)) init =
      max (l.foldl (fun b x => max b (f x)) init) (f a) := by
  rw [List.foldl_append]
  rfl

/-- What one association-list entry of the group map says about the
appearances processed so far. -/
def GroupSpec (done : List Appearance) (p : Nat × DedupGroup) : Prop :=
  p.2.chunk_data.id = p.1 ∧
  p.2.chunk_data ∈ (filterById done p.1).map (fun a => a.row) ∧
  p.2.source_queries = (filterById done p.1).map (fun a => a.query) ∧
  p.2.source_query_ids = (filterById done p.1).map (fun a => a.search_id) ∧
  p.2.best_similarity = maxSimOf (filterById done p.1) ∧
  p.2.best_cohere = maxCohOf (filterById done p.1)

/-- Loop invariant of the aggregation fold. -/
def AggInv (done : List Appearance) (groups : List (Nat × DedupGroup)) : Prop :=
  (groups.map Prod.fst).Nodup ∧
  (∀ p ∈ groups, GroupSpec done p) ∧
  (∀ a ∈ done, (groups.any fun g => decide (g.1 = a.row.id)) = true)

theorem filterById_append (done : List Appearance) (a : Appearance) (id : Nat) :
    filterById (done ++ [a]) id =
      filterById done id ++ (if a.row.id = id then [a] else []) := by
  unfold filterById
  rw [List.filter_append]
  by_cases h : a.row.id = id
  · rw [if_pos h]
    simp [h]
  · rw [if_neg h]
    simp [h]

theorem updEntry_fst (a : Appearance) (g : Nat × DedupGroup) :
    (updEntry a g).1 = g.1 := by
  unfold updEntry
  by_cases h : g.1 = a.row.id
  · rw [if_pos h]
  · rw [if_neg h]

theorem map_fst_map_updEntry (a : Appearance) (groups : List (Nat × DedupGroup)) :
    (groups.map (updEntry a)).map Prod.fst = groups.map Prod.fst := by
  rw [List.map_map]
  exact List.map_congr_left fun g _ => updEntry_fst a g

theorem any_key_map_updEntry (a : Appearance) (groups : List (Nat × DedupGroup))
    (x : Nat) :
    ((groups.map (updEntry a)).any fun g => decide (g.1 = x)) =
      (groups.any fun g => decide (g.1 = x)) := by
  have hfun : ((fun g : Nat × DedupGroup => decide (g.1 = x)) ∘ updEntry a) =
      fun g : Nat × DedupGroup => decide (g.1 = x) := by
    funext g
    simp [Function.comp, updEntry_fst]
  rw [List.any_map, hfun]

theorem maxSimOf_append (l : List Appearance) (a : Appearance) :
    maxSimOf (l ++ [a]) = max (maxSimOf l) a.row.sim := by
  unfold maxSimOf
  rw [List.foldl_append]
  rfl

theorem maxCohOf_append (l : List Appearance) (a : Appearance) :
    maxCohOf (l ++ [a]) = max (maxCohOf l) a.row.coh := by
  unfold maxCohOf
  rw [List.foldl_append]
  rfl

theorem aggInv_step {done : List Appearance} {groups : List (Nat × DedupGroup)}
    (h : AggInv done groups) (a : Appearance) :
    AggInv (done ++ [a]) (aggStep groups a) := by
  obtain ⟨hnodup, hspec, hcomplete⟩ := h
  unfold aggStep
  by_cases hany : (groups.any fun g => decide (g.1 = a.row.id)) = true
  · rw [if_pos hany]
    refine ⟨?_, ?_, ?_⟩
    · rw [map_fst_map_updEntry]
      exact hnodup
    · intro p hp
      obtain ⟨q, hq, hpq⟩ := List.mem_map.mp hp
      obtain ⟨hid, hmemrow, hsq, hsqid, hbs, hbc⟩ := hspec q hq
      by_cases hk : q.1 = a.row.id
      · subst hpq
        unfold updEntry
        rw [if_pos hk]
        have hfe : filterById (done ++ [a]) q.1 =
            filterById done q.1 ++ [a] := by
          rw [filterById_append done a q.1, if_pos hk.symm]
        refine ⟨hid, ?_, ?_, ?_, ?_, ?_⟩
        · rw [hfe, List.map_append]
          exact List.mem_append_left _ hmemrow
        · rw [hfe, List.map_append, ← hsq]
          simp
        · rw [hfe, List.map_append, ← hsqid]
          simp
        · rw [hfe, maxSimOf_append, ← hbs]
        · rw [hfe, maxCohOf_append, ← hbc]
      · subst hpq
        unfold updEntry
        rw [if_neg hk]
        have hfe : filterById (done ++ [a]) q.1 = filterById done q.1 := by
          rw [filterById_append done a q.1, if_neg (fun hc => hk hc.symm)]
          simp
        exact ⟨hid, hfe ▸ hmemrow, hfe ▸ hsq, hfe ▸ hsqid, hfe ▸ hbs, hfe ▸ hbc⟩
    · intro x hx
      rw [any_key_map_updEntry]
      rcases List.mem_append.mp hx with hmem | hmem
      · exact hcomplete x hmem
      · have hxa : x = a := by simpa using hmem
        subst hxa
        exact hany
  · rw [if_neg hany]
    have hnotin : a.row.id ∉ groups.map Prod.fst := by
      intro hc
      obtain ⟨g, hg, hgid⟩ := List.mem_map.mp hc
      apply hany
      rw [List.any_eq_true]
      exact ⟨g, hg, by simp [hgid]⟩
    have hfilter_nil : filterById done a.row.id = [] := by
      rw [List.eq_nil_iff_forall_not_mem]
      intro x hx
      have hx1 := List.mem_filter.mp hx
      have hxid : x.row.id = a.row.id := of_decide_eq_true hx1.2
      have hc := hcomplete x hx1.1
      rw [hxid] at hc
      exact hany hc
    refine ⟨?_, ?_, ?_⟩
    · rw [List.map_append]
      refine List.nodup_append.mpr ⟨hnodup, List.nodup_singleton _, ?_⟩
      intro x hx hx2
      have : x = a.row.id := by simpa [newEntry] using hx2
      subst this
      exact hnotin hx
    · intro p hp
      rcases List.mem_append.mp hp with hmem | hmem
      · obtain ⟨hid, hmemrow, hsq, hsqid, hbs, hbc⟩ := hspec p hmem
        have hne2 : ¬ (a.row.id = p.1) := by
          intro hc
          exact hnotin (hc ▸ List.mem_map_of_mem Prod.fst hmem)
        have hfe : filterById (done ++ [a]) p.1 = filterById done p.1 := by
          rw [filterById_append done a p.1, if_neg hne2]
          simp
        exact ⟨hid, hfe ▸ hmemrow, hfe ▸ hsq, hfe ▸ hsqid, hfe ▸ hbs, hfe ▸ hbc⟩
      · have hpa : p = newEntry a := by simpa using hmem
        subst hpa
        unfold newEntry
        have hfe : filterById (done ++ [a]) a.row.id = [a] := by
          rw [filterById_append done a a.row.id, if_pos rfl, hfilter_nil]
          rfl
        refine ⟨rfl, ?_, ?_, ?_, ?_, ?_⟩
        · rw [hfe]; simp
        · rw [hfe]; rfl
        · rw [hfe]; rfl
        · rw [hfe]
          unfold maxSimOf
          rfl
        · rw [hfe]
          unfold maxCohOf
          rfl
    · intro x hx
      rw [List.any_append]
      rcases List.mem_append.mp hx with hmem | hmem
      · rw [hcomplete x hmem]
        rfl
      · have hxa : x = a := by simpa using hmem
        subst hxa
        simp [newEntry]

theorem aggInv_run :
    ∀ (apps done : List Appearance) (groups : List (Nat × DedupGroup)),
      AggInv done groups →
      AggInv (done ++ apps) (apps.foldl aggStep groups) := by
  intro apps
  induction apps with
  | nil => intro done groups h; simpa using h
  | cons a as ih =>
    intro done groups h
    have h1 := aggInv_step h a
    have h2 := ih (done ++ [a]) (aggStep groups a) h1
    simpa [List.append_assoc] using h2

theorem aggInv_aggregate (srs : List TrackResult) :
    AggInv (appearancesOf srs) (aggregate srs) := by
  have h0 : AggInv [] [] := by
    refine ⟨by simp, by simp, by simp⟩
  have := aggInv_run (appearancesOf srs) [] [] h0
  simpa [aggregate] using this

/-- 0.70 as a raw rational (the raw structure keeps kernel reduction
available for `decide`; `r07_eq_div` checks the value). -/
def r07 : Rat := ⟨7, 10, by decide, by decide⟩

/-- 0.60. -/
def r06 : Rat := ⟨3, 5, by decide, by decide⟩

/-- 0.80. -/
def r08 : Rat := ⟨4, 5, by decide, by decide⟩

theorem r07_eq_div : r07 = 7 / 10 := by
  have h : (7 / 10 : Rat) = mkRat 7 10 := by norm_num [Rat.mkRat_eq_div]
  rw [h]
  rfl

theorem r06_eq_div : r06 = 6 / 10 := by
  have h : (6 / 10 : Rat) = mkRat 6 10 := by norm_num [Rat.mkRat_eq_div]
  rw [h]
  rfl

theorem r08_eq_div : r08 = 8 / 10 := by
  have h : (8 / 10 : Rat) = mkRat 8 10 := by norm_num [Rat.mkRat_eq_div]
  rw [h]
  rfl

/-- Scenario A: sub-queries `Q1`, `Q2`; Q1 returns record id 5 with
similarity 0.70, Q2 returns record id 5 with similarity 0.60 and rerank
score 0.80. -/
def scenarioASrs : List TrackResult :=
  [{ query := "Q1"
     search_id := some "Q1"
     results := [{ id := 5, content := "c", similarity := some r07 }]
     search_time := 0 },
   { query := "Q2"
     search_id := some "Q2"
     results := [{ id := 5, content := "c", similarity := some r06,
                   cohere_score := some r08 }]
     search_time := 0 }]

/-- The single aggregated chunk Scenario A produces. -/
def scenarioAChunk : Chunk :=
  { row := { id := 5, content := "c", similarity := some r07 }
    retrieved_by_queries := ["Q1", "Q2"]
    retrieved_by_query_ids := [some "Q1", some "Q2"]
    retrieval_count := 2
    unique_query_count := 2
    best_similarity := r07
    best_cohere_score := r08 }

/-- Claim C5: for every aggregated chunk, `retrieval_count` is the number of
appearances of its record id across all sub-queries' (already track-merged)
result lists, one count per appearance; `unique_query_count` is the number of
distinct sub-query texts among those appearances, hence at most
`retrieval_count`; and `best_similarity` (resp. `best_cohere_score`) bounds
every individual similarity (resp. rerank score) observed for the id.  In
Scenario A the aggregate has `retrieval_count = 2`, `unique_query_count = 2`,
`best_similarity = 0.70` and best rerank score `0.80`. -/
theorem C5_dedup_group_counts :
    (∀ (srs : List TrackResult) (c : Chunk), c ∈ deduplicated_chunks srs →
      c.retrieval_count = (filterById (appearancesOf srs) c.row.id).length ∧
      c.unique_query_count =
        (((filterById (appearancesOf srs) c.row.id).map fun a => a.query)).dedup.length ∧
      c.unique_query_count ≤ c.retrieval_count ∧
      (∀ a ∈ filterById (appearancesOf srs) c.row.id,
        a.row.sim ≤ c.best_similarity ∧ a.row.coh ≤ c.best_cohere_score)) ∧
    deduplicated_chunks scenarioASrs = [scenarioAChunk] := by
  constructor
  · intro srs c hc
    obtain ⟨p, hp, hpc⟩ := List.mem_map.mp hc
    obtain ⟨hnodup, hspec, hcomp⟩ := aggInv_aggregate srs
    obtain ⟨hid, hmemrow, hsq, hsqid, hbs, hbc⟩ := hspec p hp
    subst hpc
    simp only [mkChunk]
    rw [hid]
    refine ⟨?_, ?_, ?_, ?_⟩
    · rw [hsq, List.length_map]
    · rw [hsq]
    · exact List.Sublist.length_le (List.dedup_sublist _)
    · intro a ha
      constructor
      · rw [hbs]
        exact mem_le_foldl_max (fun x => x.row.sim) _ 0 a ha
      · rw [hbc]
        exact mem_le_foldl_max (fun x => x.row.coh) _ 0 a ha
  · decide

/-- Witness for the universally quantified part of C5 at the Scenario A
aggregate. -/
theorem C5_dedup_group_counts_witness :
    scenarioAChunk.retrieval_count =
      (filterById (appearancesOf scenarioASrs) scenarioAChunk.row.id).length ∧
    scenarioAChunk.unique_query_count =
      (((filterById (appearancesOf scenarioASrs) scenarioAChunk.row.id).map
        fun a => a.query)).dedup.length ∧
    scenarioAChunk.unique_query_count ≤ scenarioAChunk.retrieval_count ∧
    (∀ a ∈ filterById (appearancesOf scenarioASrs) scenarioAChunk.row.id,
      a.row.sim ≤ scenarioAChunk.best_similarity ∧
      a.row.coh ≤ scenarioAChunk.best_cohere_score) :=
  C5_dedup_group_counts.1 scenarioASrs scenarioAChunk (by decide)

/-! ### Final fusion rerank (lines 321-350) -/

/-- A default chunk for the `getD` access in the statement about the final
ranking; never selected under the in-range hypothesis. -/
def dummyChunk : Chunk :=
  { row := { id := 0, content := "" }
    retrieved_by_queries := []
    retrieved_by_query_ids := []
    retrieval_count := 0
    unique_query_count := 0
    best_similarity := 0
    best_cohere_score := 0 }

/-- `main_query = " ".join(queries)` (line 326). -/
def mainQueryOf (queries : List String) : String := String.intercalate " " queries

/-- Lines 338-344: map the final rerank response onto the deduplicated
chunks, setting `final_cohere_score` and `final_rank := idx + 1`.  `none`
models the `IndexError` of an out-of-range response index, which the handler
of line 346 turns into the first-12 fallback (as with `applyRerank`, the
partial mutations Python performs before such an error are not modeled; no
claim concerns an out-of-range response). -/
def applyFinalRerank (dedup : List Chunk) (rs : List RerankEntry) :
    Option (List Chunk) :=
  rs.enum.mapM fun p =>
    (dedup[p.2.index]?).map fun c =>
      { c with
        final_cohere_score := some p.2.relevance_score
        final_rank := some (p.1 + 1) }

/-- The fusion stage (lines 321-350).  With more than one sub-query and a
non-empty deduplicated set, the whole set is reranked against the joined
query text with `top_n = min(10, len(documents))`; on any failure the first
12 groups are kept in insertion order; otherwise (at most one sub-query) the
first 8 groups are kept. -/
def fuseFinal (queries : List String) (dedup : List Chunk)
    (rerank : String → List String → Nat → Except String (List RerankEntry)) :
    List Chunk :=
  if 1 < queries.length ∧ dedup ≠ [] then
    match rerank (mainQueryOf queries) (dedup.map fun c => c.row.content)
        (min 10 dedup.length) with
    | .ok rs => (applyFinalRerank dedup rs).getD (dedup.take 12)
    | .error _ => dedup.take 12
  else dedup.take 8

theorem applyFinalRerank_go (dedup : List Chunk) :
    ∀ (rs : List RerankEntry), (∀ e ∈ rs, e.index < dedup.length) →
      ∀ (k : Nat),
      ((rs.enumFrom k).mapM fun p =>
        (dedup[p.2.index]?).map fun c =>
          { c with
            final_cohere_score := some p.2.relevance_score
            final_rank := some (p.1 + 1) }) =
      some ((rs.enumFrom k).map fun p =>
        { dedup.getD p.2.index dummyChunk with
          final_cohere_score := some p.2.relevance_score
          final_rank := some (p.1 + 1) }) := by
  intro rs
  induction rs with
  | nil => intro hb k; rfl
  | cons r rest ih =>
    intro hb k
    have hr : r.index < dedup.length := hb r (List.mem_cons_self r rest)
    have hrest : ∀ e ∈ rest, e.index < dedup.length := fun e he =>
      hb e (List.mem_cons_of_mem r he)
    simp only [List.enumFrom_cons, List.mapM_cons, List.map_cons]
    rw [ih hrest (k + 1)]
    simp [List.getElem?_eq_getElem hr, List.getD_eq_getElem?_getD]

theorem applyFinalRerank_of_bounds (dedup : List Chunk) (rs : List RerankEntry)
    (hb : ∀ e ∈ rs, e.index < dedup.length) :
    applyFinalRerank dedup rs =
      some (rs.enum.map fun p =>
        { dedup.getD p.2.index dummyChunk with
          final_cohere_score := some p.2.relevance_score
          final_rank := some (p.1 + 1) }) :=
  applyFinalRerank_go dedup rs hb 0

/-- Claim C8: with more than one sub-query and a non-empty deduplicated set,
the fusion stage reranks the full set against the concatenated sub-query
texts requesting the top `min(10, number of documents)`, and assigns each
returned entry a final rank (its response position + 1) and final score by
mapping response indices back to the deduplicated groups; on rerank failure
it keeps the first 12 groups in insertion order; with a single sub-query the
fusion rerank is skipped and the first 8 groups are kept in order. -/
theorem C8_fusion_rerank :
    (∀ (queries : List String) (dedup : List Chunk)
      (rerank : String → List String → Nat → Except String (List RerankEntry))
      (rs : List RerankEntry),
      1 < queries.length → dedup ≠ [] →
      rerank (mainQueryOf queries) (dedup.map fun c => c.row.content)
          (min 10 dedup.length) = Except.ok rs →
      (∀ e ∈ rs, e.index < dedup.length) →
      fuseFinal queries dedup rerank =
        rs.enum.map fun p =>
          { dedup.getD p.2.index dummyChunk with
            final_cohere_score := some p.2.relevance_score
            final_rank := some (p.1 + 1) }) ∧
    (∀ (queries : List String) (dedup : List Chunk)
      (rerank : String → List String → Nat → Except String (List RerankEntry))
      (e : String),
      1 < queries.length → dedup ≠ [] →
      rerank (mainQueryOf queries) (dedup.map fun c => c.row.content)
          (min 10 dedup.length) = Except.error e →
      fuseFinal queries dedup rerank = dedup.take 12) ∧
    (∀ (queries : List String) (dedup : List Chunk)
      (rerank : String → List String → Nat → Except String (List RerankEntry)),
      queries.length = 1 →
      fuseFinal queries dedup rerank = dedup.take 8) := by
  refine ⟨?_, ?_, ?_⟩
  · intro queries dedup rerank rs h1 h2 hok hb
    unfold fuseFinal
    rw [if_pos ⟨h1, h2⟩, hok]
    simp only [applyFinalRerank_of_bounds dedup rs hb, Option.getD_some]
  · intro queries dedup rerank e h1 h2 herr
    unfold fuseFinal
    rw [if_pos ⟨h1, h2⟩, herr]
  · intro queries dedup rerank hlen
    unfold fuseFinal
    rw [if_neg fun hcon => absurd (hlen ▸ hcon.1) (by decide)]

/-- Two concrete deduplicated chunks for the C8 witness. -/
def fuseChunkA : Chunk :=
  { row := { id := 1, content := "ca" }
    retrieved_by_queries := ["q1"]
    retrieved_by_query_ids := [some "Q1"]
    retrieval_count := 1
    unique_query_count := 1
    best_similarity := 1
    best_cohere_score := 0 }

/-- A second concrete chunk. -/
def fuseChunkB : Chunk :=
  { row := { id := 2, content := "cb" }
    retrieved_by_queries := ["q2"]
    retrieved_by_query_ids := [some "Q2"]
    retrieval_count := 1
    unique_query_count := 1
    best_similarity := 2
    best_cohere_score := 0 }

/-- A fusion-rerank oracle answering with indices 1 then 0. -/
def okFusionOracle : String → List String → Nat → Except String (List RerankEntry) :=
  fun _ _ _ =>
    Except.ok [{ index := 1, relevance_score := 9 }, { index := 0, relevance_score := 5 }]

/-- A failing fusion-rerank oracle. -/
def errFusionOracle : String → List String → Nat → Except String (List RerankEntry) :=
  fun _ _ _ => Except.error "service down"

/-- Witness for C8: the three branches at concrete inputs. -/
theorem C8_fusion_rerank_witness :
    fuseFinal ["wandering at night", "dementia safety"]
        [fuseChunkA, fuseChunkB] okFusionOracle =
      [{ fuseChunkB with final_cohere_score := some 9, final_rank := some 1 },
       { fuseChunkA with final_cohere_score := some 5, final_rank := some 2 }] ∧
    fuseFinal ["wandering at night", "dementia safety"]
        [fuseChunkA, fuseChunkB] errFusionOracle = [fuseChunkA, fuseChunkB] ∧
    fuseFinal ["single query"] [fuseChunkA, fuseChunkB] errFusionOracle =
      [fuseChunkA, fuseChunkB] := by
  refine ⟨?_, ?_, ?_⟩
  · have h := C8_fusion_rerank.1 ["wandering at night", "dementia safety"]
      [fuseChunkA, fuseChunkB] okFusionOracle
      [{ index := 1, relevance_score := 9 }, { index := 0, relevance_score := 5 }]
      (by decide) (by decide) rfl (by decide)
    rw [h]
    rfl
  · exact C8_fusion_rerank.2.1 ["wandering at night", "dementia safety"]
      [fuseChunkA, fuseChunkB] errFusionOracle "service down"
      (by decide) (by decide) rfl
  · exact C8_fusion_rerank.2.2 ["single query"] [fuseChunkA, fuseChunkB]
      errFusionOracle rfl

/-! ### Result formatting and the tool report (lines 352-415) -/

/-- Python `round(x, 3)`: round half to even at three decimal places.
(Python rounds binary floats; the embedding rounds the exact rational.  No
claim depends on rounded values.) -/
def pyRound3 (q : Rat) : Rat :=
  let scaled := q * 1000
  let fl : Int := ⌊scaled⌋
  let fr := scaled - fl
  let r : Int :=
    if fr < 1/2 then fl
    else if 1/2 < fr then fl + 1
    else if fl % 2 = 0 then fl else fl + 1
  (r : Rat) / 1000

/-- One entry of the `formatted_results` list (lines 354-377). -/
structure FormattedChunk where
  chunk_id : Nat
  source_url : Option String
  page_title : Option String
  topic_heading : Option String
  content : String
  similarity_score : Rat
  cohere_score : Rat
  best_similarity : Rat
  best_cohere_score : Rat
  final_cohere_score : Rat
  final_rank : Option Nat
  retrieved_by_queries : List String
  retrieved_by_query_ids : List (Option String)
  retrieval_count : Nat
  unique_query_count : Nat
  is_duplicate_found : Bool
deriving DecidableEq

/-- Lines 354-377: truncate content to 800 characters with an ellipsis
marker, round the scores to 3 decimals, copy the provenance fields. -/
def formatChunk (c : Chunk) : FormattedChunk :=
  { chunk_id := c.row.id
    source_url := c.row.source_url
    page_title := c.row.page_title
    topic_heading := c.row.topic_heading
    content :=
      if 800 < c.row.content.length then
        String.mk (c.row.content.toList.take 800) ++ "..."
      else c.row.content
    similarity_score := pyRound3 c.row.sim
    cohere_score := pyRound3 c.row.coh
    best_similarity := pyRound3 c.best_similarity
    best_cohere_score := pyRound3 c.best_cohere_score
    final_cohere_score := pyRound3 (c.final_cohere_score.getD 0)
    final_rank := c.final_rank
    retrieved_by_queries := c.retrieved_by_queries
    retrieved_by_query_ids := c.retrieved_by_query_ids
    retrieval_count := c.retrieval_count
    unique_query_count := c.unique_query_count
    is_duplicate_found := decide (1 < c.retrieval_count) }

/-- One `query_details` entry (lines 389-397). -/
structure QueryDetail where
  query : String
  search_id : Option String
  results_count : Nat
  search_time : Rat
  error : Option String
deriving DecidableEq

/-- The `deduplication_stats` dict (lines 383-388).  `duplicates_removed` is
a Python int difference, hence `Int`. -/
structure DedupStats where
  total_chunks_before : Nat
  unique_chunks_after : Nat
  duplicates_removed : Int
  chunks_found_multiple_times : Nat
deriving DecidableEq

/-- The `search_summary` dict (lines 380-401). -/
structure SearchSummary where
  total_queries : Nat
  parsed_queries : List String
  deduplication_stats : DedupStats
  query_details : List QueryDetail
  results : List FormattedChunk
  total_results : Nat
  overall_time : Rat
deriving DecidableEq

/-- The two JSON shapes the tool returns (lines 407-415): the not-found
report with a `status` key, or the bare summary. -/
inductive ToolReport where
  | notFound (message : String) (queries : List String) (summary : SearchSummary)
  | ok (summary : SearchSummary)
deriving DecidableEq

def ToolReport.isNotFound : ToolReport → Bool
  | .notFound _ _ _ => true
  | .ok _ => false

def ToolReport.summary : ToolReport → SearchSummary
  | .notFound _ _ s => s
  | .ok s => s

/-- The search-and-report body of `parallel_comprehensive_search` after input
parsing (lines 240-415): fan-out, cross-query deduplication, fusion rerank,
formatting, summary, and the not-found branch. -/
def runPipeline (O : Nat → SearchOracles)
    (finalR : String → List String → Nat → Except String (List RerankEntry))
    (queries : List String) (completionOrder : List Nat) (overallTime : Rat) :
    ToolReport :=
  let all_search_results := fanOutResults O queries completionOrder
  let dedup := deduplicated_chunks all_search_results
  let final_chunks := fuseFinal queries dedup finalR
  let formatted_results := final_chunks.map formatChunk
  let total_before := (all_search_results.map fun sr => sr.results.length).sum
  let search_summary : SearchSummary :=
    { total_queries := queries.length
      parsed_queries := queries
      deduplication_stats :=
        { total_chunks_before := total_before
          unique_chunks_after := dedup.length
          duplicates_removed := (total_before : Int) - (dedup.length : Int)
          chunks_found_multiple_times :=
            (final_chunks.filter fun c => decide (1 < c.retrieval_count)).length }
      query_details := all_search_results.map fun sr =>
        { query := sr.query
          search_id := sr.search_id
          results_count := sr.results.length
          search_time := sr.search_time
          error := sr.error }
      results := formatted_results
      total_results := formatted_results.length
      overall_time := overallTime }
  if formatted_results.isEmpty then
    ToolReport.notFound "No relevant information found for any of the queries."
      queries search_summary
  else ToolReport.ok search_summary

/-- Claim C9: when every sub-query returns zero records, the tool returns a
structured report (the pipeline is a total function, it never raises) whose
status is the not-found shape, with `total_results = 0` and
`duplicates_removed = 0`, so callers can branch on the status alone. -/
theorem C9_empty_results_not_found :
    ∀ (O : Nat → SearchOracles)
      (finalR : String → List String → Nat → Except String (List RerankEntry))
      (queries : List String) (comp : List Nat) (ot : Rat),
      (∀ sr ∈ fanOutResults O queries comp, sr.results = []) →
      (runPipeline O finalR queries comp ot).isNotFound = true ∧
      (runPipeline O finalR queries comp ot).summary.total_results = 0 ∧
      (runPipeline O finalR queries comp ot).summary.deduplication_stats.duplicates_removed
        = 0 := by
  intro O finalR queries comp ot hempty
  have happ : appearancesOf (fanOutResults O queries comp) = [] := by
    unfold appearancesOf
    rw [List.flatMap_eq_nil_iff]
    intro sr hsr
    rw [hempty sr hsr]
    rfl
  have hdedup : deduplicated_chunks (fanOutResults O queries comp) = [] := by
    unfold deduplicated_chunks aggregate
    rw [happ]
    rfl
  have hfuse :
      fuseFinal queries (deduplicated_chunks (fanOutResults O queries comp)) finalR
        = [] := by
    rw [hdedup]
    unfold fuseFinal
    rw [if_neg fun hcon => hcon.2 rfl]
    rfl
  have hsum : ((fanOutResults O queries comp).map fun sr => sr.results.length).sum
      = 0 := by
    apply List.sum_eq_zero
    intro x hx
    obtain ⟨sr, hsr, hxe⟩ := List.mem_map.mp hx
    rw [← hxe, hempty sr hsr]
    rfl
  unfold runPipeline
  simp only [hfuse]
  simp only [hdedup, hsum, List.map_nil, List.length_nil, List.isEmpty_nil, if_true]
  refine ⟨rfl, rfl, rfl⟩

/-- Oracles whose two retrieval tracks succeed with zero rows. -/
def emptyResultsO : SearchOracles :=
  { embed := Except.ok ()
    simple := Except.ok []
    title := Except.ok []
    rerank := fun _ _ _ => Except.error "unused"
    elapsed := 0 }

/-- Witness for C9 at a single sub-query with zero rows from both tracks. -/
theorem C9_empty_results_not_found_witness :
    (runPipeline (fun _ => emptyResultsO) errFusionOracle
        ["care homes"] [0] 0).isNotFound = true ∧
    (runPipeline (fun _ => emptyResultsO) errFusionOracle
        ["care homes"] [0] 0).summary.total_results = 0 ∧
    (runPipeline (fun _ => emptyResultsO) errFusionOracle
        ["care homes"] [0] 0).summary.deduplication_stats.duplicates_removed = 0 := by
  have hfo : fanOutResults (fun _ => emptyResultsO) ["care homes"] [0] =
      [execute_dual_track_search emptyResultsO "care homes" (some (qid 0))] := by
    simp [fanOutResults, submittedResults, List.enum, List.enumFrom]
  refine C9_empty_results_not_found (fun _ => emptyResultsO) errFusionOracle
    ["care homes"] [0] 0 ?_
  intro sr hsr
  rw [hfo] at hsr
  have hsr2 : sr = execute_dual_track_search emptyResultsO "care homes" (some (qid 0)) := by
    simpa using hsr
  subst hsr2
  rfl

/-! ### Input parsing (lines 201-234)

`json.loads` and the `str(…)` builtin are external; they enter as oracle
parameters.  A `PyJson` value is what a successful parse yields. -/

inductive PyJson where
  | jnull
  | jbool (b : Bool)
  | jnum (n : Int)
  | jstr (s : String)
  | jarr (xs : List PyJson)
  | jobj (kvs : List (String × PyJson))

/-- Python `str.strip()`: drop whitespace at both ends. -/
def pyStrip (s : String) : String :=
  String.mk (((s.data.dropWhile Char.isWhitespace).reverse.dropWhile
    Char.isWhitespace).reverse)

/-- Python iteration over the `queries` value, as the comprehension of line
232 uses it: a list yields its elements, a string yields its characters as
one-character strings, a dict yields its keys; numbers, booleans and `None`
are not iterable — an uncaught `TypeError` (the comprehension is outside the
try of lines 206-229), modeled as the error case. -/
def pyIterate : PyJson → Except Unit (List PyJson)
  | .jarr xs => .ok xs
  | .jstr s => .ok (s.data.map fun c => .jstr (String.singleton c))
  | .jobj kvs => .ok (kvs.map fun kv => .jstr kv.1)
  | _ => .error ()

/-- `q.strip()` on one element of the comprehension: only strings have
`.strip` — anything else is an uncaught `AttributeError`, modeled as the
error case. -/
def pyStripElem : PyJson → Except Unit String
  | .jstr s => .ok (pyStrip s)
  | _ => .error ()

/-- The try/except block of lines 206-229: the Python value bound to
`queries` before the cleanup.  `jloads` models `json.loads` (an
`Except.error` is a `JSONDecodeError`, which the outer `except` of line 226
catches, as it does for the nested `json.loads` of the `queries_json`
branch); `pyToStr` models `str(…)`.  The bare `except` of line 221 catches
the inner double-decode failure and keeps the string itself. -/
def parseQueriesValue (jloads : String → Except Unit PyJson)
    (pyToStr : PyJson → String) (query_input : String) : PyJson :=
  match jloads query_input with
  | .error _ => .jarr [.jstr (pyStrip query_input)]
  | .ok parsed =>
    match parsed with
    | .jarr xs => .jarr xs
    | .jobj kvs =>
      match kvs.find? fun kv => decide (kv.1 = "queries_json") with
      | some kv =>
        match kv.2 with
        | .jstr inner =>
          match jloads inner with
          | .ok v => v
          | .error _ => .jarr [.jstr (pyStrip query_input)]
        | v => v
      | none => .jarr [.jstr (pyToStr parsed)]
    | .jstr s =>
      match jloads s with
      | .ok v => v
      | .error _ => .jarr [.jstr s]
    | other => .jarr [.jstr (pyToStr other)]

/-- Lines 206-234: parse, then the cleanup
`[q.strip() for q in queries if q.strip()]` (strip each element, keep the
non-blank results — stripping is idempotent, so filtering after mapping is
the same comprehension), then the default substitution of line 234. -/
def parse_queries (jloads : String → Except Unit PyJson)
    (pyToStr : PyJson → String) (query_input : String) :
    Except Unit (List String) :=
  match pyIterate (parseQueriesValue jloads pyToStr query_input) with
  | .error e => .error e
  | .ok elems =>
    match elems.mapM pyStripElem with
    | .error e => .error e
    | .ok stripped =>
      let queries := stripped.filter fun s => decide (s ≠ "")
      .ok (if queries.isEmpty then ["general dementia care information"]
        else queries)

theorem mapM_pyStripElem_blank :
    ∀ (xs : List PyJson), (∀ x ∈ xs, ∃ s, x = PyJson.jstr s ∧ pyStrip s = "") →
      xs.mapM pyStripElem = Except.ok (xs.map fun _ => "") := by
  intro xs
  induction xs with
  | nil => intro h; rfl
  | cons x rest ih =>
    intro h
    obtain ⟨s, hx, hs⟩ := h x (List.mem_cons_self x rest)
    subst hx
    rw [List.mapM_cons, ih fun y hy => h y (List.mem_cons_of_mem _ hy)]
    simp [pyStripElem, hs]
    rfl

/-- Claim C10: an empty or whitespace-only input (which `json.loads`
rejects), and an input parsing to a list of blank strings, both yield the
single default query rather than a failure or an empty list; and whenever
the parser returns at all, the sub-query list it returns is non-empty. -/
theorem C10_parser_default_and_nonempty :
    (∀ (jloads : String → Except Unit PyJson) (pyToStr : PyJson → String)
      (input : String),
      pyStrip input = "" → jloads input = Except.error () →
      parse_queries jloads pyToStr input =
        Except.ok ["general dementia care information"]) ∧
    (∀ (jloads : String → Except Unit PyJson) (pyToStr : PyJson → String)
      (input : String) (xs : List PyJson),
      jloads input = Except.ok (PyJson.jarr xs) →
      (∀ x ∈ xs, ∃ s, x = PyJson.jstr s ∧ pyStrip s = "") →
      parse_queries jloads pyToStr input =
        Except.ok ["general dementia care information"]) ∧
    (∀ (jloads : String → Except Unit PyJson) (pyToStr : PyJson → String)
      (input : String) (qs : List String),
      parse_queries jloads pyToStr input = Except.ok qs → qs ≠ []) := by
  refine ⟨?_, ?_, ?_⟩
  · intro jloads pyToStr input hstrip hj
    unfold parse_queries parseQueriesValue
    rw [hj, hstrip]
    rfl
  · intro jloads pyToStr input xs hj hblank
    unfold parse_queries parseQueriesValue
    rw [hj]
    have hm := mapM_pyStripElem_blank xs hblank
    show (match xs.mapM pyStripElem with
      | .error e => Except.error e
      | .ok stripped =>
        let queries := stripped.filter fun s => decide (s ≠ "")
        Except.ok (if queries.isEmpty then ["general dementia care information"]
          else queries)) = Except.ok ["general dementia care information"]
    rw [hm]
    have hfil : ((xs.map fun _ => "").filter fun s => decide (s ≠ "")) = [] := by
      rw [List.filter_eq_nil_iff]
      intro a ha
      obtain ⟨x, _, hax⟩ := List.mem_map.mp ha
      rw [← hax]
      simp
    show Except.ok
        (if ((xs.map fun _ => "").filter fun s => decide (s ≠ "")).isEmpty then
          ["general dementia care information"]
        else (xs.map fun _ => "").filter fun s => decide (s ≠ "")) =
      Except.ok ["general dementia care information"]
    rw [hfil]
    rfl
  · intro jloads pyToStr input qs h
    unfold parse_queries at h
    cases hiter : pyIterate (parseQueriesValue jloads pyToStr input) with
    | error e =>
      rw [hiter] at h
      have h3 : (Except.error e : Except Unit (List String)) = Except.ok qs := h
      exact absurd h3 (by simp)
    | ok elems =>
      rw [hiter] at h
      have h2 : (match elems.mapM pyStripElem with
        | Except.error e => Except.error e
        | Except.ok stripped =>
          let queries := stripped.filter fun s => decide (s ≠ "")
          Except.ok (if queries.isEmpty then ["general dementia care information"]
            else queries)) = Except.ok qs := h
      cases hmapM : elems.mapM pyStripElem with
      | error e =>
        rw [hmapM] at h2
        have h3 : (Except.error e : Except Unit (List String)) = Except.ok qs := h2
        exact absurd h3 (by simp)
      | ok stripped =>
        rw [hmapM] at h2
        have h3 : Except.ok
            (if ((stripped.filter fun s => decide (s ≠ "")).isEmpty) then
              ["general dementia care information"]
            else stripped.filter fun s => decide (s ≠ "")) = Except.ok qs := h2
        have hq := Except.ok.inj h3
        rw [← hq]
        cases hie : (stripped.filter fun s => decide (s ≠ "")).isEmpty with
        | true =>
          rw [if_pos rfl]
          simp
        | false =>
          rw [if_neg (by simp)]
          intro hnil
          rw [hnil] at hie
          simp at hie

/-- A `json.loads` oracle that rejects every input (as the real one does for
empty and whitespace-only strings). -/
def jlAlwaysFails : String → Except Unit PyJson := fun _ => Except.error ()

/-- A `json.loads` oracle returning a list holding one blank string. -/
def jlBlankList : String → Except Unit PyJson :=
  fun _ => Except.ok (PyJson.jarr [PyJson.jstr " "])

/-- A trivial `str(…)` oracle (never consulted on the witness paths). -/
def pyToStr0 : PyJson → String := fun _ => ""

/-- Witness for C10: a whitespace-only input and a blank-list input both
produce the default query; the parsed list is non-empty. -/
theorem C10_parser_default_and_nonempty_witness :
    parse_queries jlAlwaysFails pyToStr0 "   " =
      Except.ok ["general dementia care information"] ∧
    parse_queries jlBlankList pyToStr0 "[\" \"]" =
      Except.ok ["general dementia care information"] ∧
    (["general dementia care information"] : List String) ≠ [] :=
  ⟨C10_parser_default_and_nonempty.1 jlAlwaysFails pyToStr0 "   " rfl rfl,
   C10_parser_default_and_nonempty.2.1 jlBlankList pyToStr0 "[\" \"]"
     [PyJson.jstr " "] rfl (fun x hx => ⟨" ", by simpa using hx, rfl⟩),
   C10_parser_default_and_nonempty.2.2 jlAlwaysFails pyToStr0 "   "
     ["general dementia care information"]
     (C10_parser_default_and_nonempty.1 jlAlwaysFails pyToStr0 "   " rfl rfl)⟩

end Ojas
